import Mathlib

/-!
# lz1: the LZ77 token codec of `lz.c`

A shallow embedding of `lz77_compress` and `lz77_decompress`.

Conventions of the embedding.

* A C pointer to bytes is a `Mem`: the byte found at every offset from the
  pointer.  The function `lz77_compress` receives a pointer and a size; the
  memory behind the pointer does not end at `uncompressed_size`, and the code
  reads it without comparing the offset with the size, so the model keeps the
  whole memory and the size apart.
* A memory cell holds a byte.  A one-byte store copies a value that is a byte
  already (a loaded byte, or a number reduced modulo 256), so `store8` does not
  reduce it again.
* `uint32_t` variables are naturals reduced modulo `2^32 = 4294967296` at every
  operation that can wrap; `uint16_t output_pointer` is reduced modulo `65536`.
  An offset is added to a pointer without reduction (flat address space wider
  than 32 bits).
* The casts `*((uint32_t *) p)` are four-byte little-endian accesses.
* Loops are recursions on a fuel argument.  The two inner loops of the encoder
  are bounded by construction (16 and 4096 iterations), the outer loops are
  not: their fuel is a parameter and the functions return `none` when it runs
  out before the loop condition fails.
* The encoder state carries a ghost list `emitted` recording, for every outer
  step, the values of the variables from which the token was built.  For the
  decoder the ghost list `decompressSpans` records the number of bytes every
  processed token produced.
* Of `file_lz77_decompress` only the comparison of the value returned by
  `lz77_decompress` with the declared length is modelled; the file operations
  around it are not.
* Statements about positions carry the assumption that the 32-bit counters
  involved do not wrap (`N + 15 < 2^32` for the positions the encoder can
  compute, `4 + 3 * k < 2^32` for the output size); the specification leaves
  representable positions to the caller.
-/

namespace LZ1

/-- Byte-addressed memory, seen from a base pointer. -/
abbrev Mem := Nat → Nat

/-- One-byte store `*(m + a) = v`. -/
def store8 (m : Mem) (a v : Nat) : Mem :=
  fun i => if i = a then v else m i

/-- Four-byte little-endian store `*((uint32_t *) (m + a)) = v`. -/
def store32 (m : Mem) (a v : Nat) : Mem :=
  store8 (store8 (store8 (store8 m a (v % 256)) (a + 1) (v / 256 % 256))
    (a + 2) (v / 65536 % 256)) (a + 3) (v / 16777216 % 256)

/-- Four-byte little-endian load `*((uint32_t *) (m + a))`. -/
def load32 (m : Mem) (a : Nat) : Nat :=
  (m a + 256 * m (a + 1) + 65536 * m (a + 2) + 16777216 * m (a + 3)) % 4294967296

/-- The first `n` bytes behind a pointer. -/
def bytes (m : Mem) (n : Nat) : List Nat :=
  (List.range n).map m

/-- The memory holding the bytes of a list, followed by zero bytes. -/
def memOfList (l : List Nat) : Mem :=
  fun i => l.getD i 0

/-! ## Encoder -/

/-- The match-growth loop, `lz.c` lines 22-24:
`for(temp_pointer_length = 0; text[look_ahead++] == text[look_behind++]; ++temp_pointer_length)
   if(temp_pointer_length == 15) break;` -/
def matchLength (text : Mem) : Nat → Nat → Nat → Nat → Nat
  | 0, _, _, temp_pointer_length => temp_pointer_length
  | fuel + 1, look_ahead, look_behind, temp_pointer_length =>
    if text look_ahead = text look_behind then
      if temp_pointer_length = 15 then temp_pointer_length
      else matchLength text fuel ((look_ahead + 1) % 4294967296)
        ((look_behind + 1) % 4294967296) (temp_pointer_length + 1)
    else temp_pointer_length

/-- The length found for one candidate, `lz.c` lines 20-24:
`look_behind = coding_pos - temp_pointer_pos; look_ahead = coding_pos;` followed
by the match-growth loop started at `temp_pointer_length = 0`. -/
def candLength (text : Mem) (coding_pos temp_pointer_pos : Nat) : Nat :=
  matchLength text 16 coding_pos (coding_pos - temp_pointer_pos) 0

/-- The candidate loop, `lz.c` lines 18-32, from the state
`(temp_pointer_pos, pointer_pos, pointer_length)`; returns the final
`(pointer_pos, pointer_length)`. -/
def searchLoop (text : Mem) (coding_pos : Nat) : Nat → Nat → Nat → Nat → Nat × Nat
  | 0, _, pointer_pos, pointer_length => (pointer_pos, pointer_length)
  | fuel + 1, temp_pointer_pos, pointer_pos, pointer_length =>
    if temp_pointer_pos < 4096 ∧ temp_pointer_pos ≤ coding_pos then
      let temp_pointer_length := candLength text coding_pos temp_pointer_pos
      if temp_pointer_length > pointer_length then
        if temp_pointer_length = 15 then (temp_pointer_pos, temp_pointer_length)
        else searchLoop text coding_pos fuel (temp_pointer_pos + 1)
          temp_pointer_pos temp_pointer_length
      else searchLoop text coding_pos fuel (temp_pointer_pos + 1) pointer_pos pointer_length
    else (pointer_pos, pointer_length)

/-- The match finder, `lz.c` lines 16-32: `pointer_pos = 0; pointer_length = 0;`
followed by the candidate loop started at `temp_pointer_pos = 1`. -/
def findMatch (text : Mem) (coding_pos : Nat) : Nat × Nat :=
  searchLoop text coding_pos 4096 1 0 0

/-- The packed word, `lz.c` lines 36 and 41:
`output_pointer = (pointer_pos << 4) | length`, a `uint16_t`. -/
def packPointer (pointer_pos length : Nat) : Nat :=
  ((pointer_pos <<< 4) ||| length) % 65536

/-- The stores of one token, `lz.c` lines 44-46: a four-byte store of the packed
word at `compressed_pointer`, then the literal at `compressed_pointer + 2`. -/
def writeToken (compressed_text : Mem) (compressed_pointer output_pointer literal : Nat) : Mem :=
  store8 (store32 compressed_text compressed_pointer output_pointer)
    ((compressed_pointer + 2) % 4294967296) literal

/-- What one outer step of the encoder produced (ghost record). -/
structure Emitted where
  /-- Value of `coding_pos` when the step started -/
  pos : Nat
  /-- Final `pointer_pos` of the search, the distance field of the token -/
  distance : Nat
  /-- Final `pointer_length` of the search -/
  found : Nat
  /-- The length field packed into the token -/
  length : Nat
  /-- The literal byte of the token -/
  literal : Nat
  deriving DecidableEq, Repr

/-- State of the outer loop of `lz77_compress`. -/
structure CompState where
  coding_pos : Nat
  compressed_pointer : Nat
  output_size : Nat
  compressed_text : Mem
  emitted : List Emitted

/-- The ghost record of the step taken at `coding_pos`, `lz.c` lines 16-43 and
the load of line 46. -/
def emitAt (text : Mem) (uncompressed_size coding_pos : Nat) : Emitted :=
  let pointer_pos := (findMatch text coding_pos).1
  let pointer_length := (findMatch text coding_pos).2
  let coding_pos1 := (coding_pos + pointer_length) % 4294967296
  if pointer_length ≠ 0 ∧ coding_pos1 = uncompressed_size then
    { pos := coding_pos, distance := pointer_pos, found := pointer_length,
      length := pointer_length - 1,
      literal := text ((coding_pos1 + 4294967295) % 4294967296) }
  else
    { pos := coding_pos, distance := pointer_pos, found := pointer_length,
      length := pointer_length, literal := text coding_pos1 }

/-- One iteration of the outer loop of `lz77_compress`, `lz.c` lines 16-47,
followed by the `++coding_pos` of line 14. -/
def compressStep (text : Mem) (uncompressed_size : Nat) (st : CompState) : CompState :=
  let e := emitAt text uncompressed_size st.coding_pos
  let coding_pos1 := (st.coding_pos + e.found) % 4294967296
  { coding_pos := (coding_pos1 + 1) % 4294967296
    compressed_pointer := ((st.compressed_pointer + 2) % 4294967296 + 1) % 4294967296
    output_size := (st.output_size + 3) % 4294967296
    compressed_text :=
      writeToken st.compressed_text st.compressed_pointer
        (packPointer e.distance e.length) e.literal
    emitted := st.emitted ++ [e] }

/-- The outer loop of `lz77_compress`, `lz.c` line 14, for at most `fuel`
iterations. -/
def compressLoop (text : Mem) (uncompressed_size : Nat) : Nat → CompState → CompState
  | 0, st => st
  | fuel + 1, st =>
    if st.coding_pos < uncompressed_size then
      compressLoop text uncompressed_size fuel (compressStep text uncompressed_size st)
    else st

/-- State at the entry of the outer loop, `lz.c` lines 11-14. -/
def compressInit (uncompressed_size : Nat) (compressed_text : Mem) : CompState :=
  { coding_pos := 0
    compressed_pointer := 4
    output_size := 4
    compressed_text := store32 compressed_text 0 uncompressed_size
    emitted := [] }

/-- State of `lz77_compress` after at most `fuel` iterations of its outer loop. -/
def compressRun (fuel : Nat) (text : Mem) (uncompressed_size : Nat) (compressed_text : Mem) :
    CompState :=
  compressLoop text uncompressed_size fuel (compressInit uncompressed_size compressed_text)

/-- The function `lz77_compress`: the returned size and the final contents of
`compressed_text`, or `none` when the outer loop has not ended within `fuel`
iterations. -/
def lz77_compress (fuel : Nat) (text : Mem) (uncompressed_size : Nat) (compressed_text : Mem) :
    Option (Nat × Mem) :=
  let st := compressRun fuel text uncompressed_size compressed_text
  if st.coding_pos < uncompressed_size then none
  else some (st.output_size, st.compressed_text)

/-! ## Decoder -/

/-- The back-copy loop, `lz.c` lines 69-70:
`for(...; pointer_length > 0; --pointer_length) text[coding_pos++] = text[pointer_offset++];`
returns the memory and the final `coding_pos`. -/
def copyLoop (uncompressed_text : Mem) : Nat → Nat → Nat → Mem × Nat
  | 0, coding_pos, _ => (uncompressed_text, coding_pos)
  | pointer_length + 1, coding_pos, pointer_offset =>
    copyLoop (store8 uncompressed_text coding_pos (uncompressed_text pointer_offset))
      pointer_length ((coding_pos + 1) % 4294967296) ((pointer_offset + 1) % 4294967296)

/-- The packed word read by the decoder, `lz.c` line 64:
`input_pointer = *((uint32_t *) (compressed_text + compressed_pointer))`, a
four-byte load converted to `uint16_t`. -/
def readPointer (compressed_text : Mem) (compressed_pointer : Nat) : Nat :=
  load32 compressed_text compressed_pointer % 65536

/-- State of the outer loop of `lz77_decompress`. -/
structure DecState where
  coding_pos : Nat
  compressed_pointer : Nat
  uncompressed_text : Mem

/-- One iteration of the outer loop of `lz77_decompress`, `lz.c` lines 64-71,
followed by the `++coding_pos` of line 62. -/
def decompressStep (compressed_text : Mem) (st : DecState) : DecState :=
  let input_pointer := readPointer compressed_text st.compressed_pointer
  let compressed_pointer := (st.compressed_pointer + 2) % 4294967296
  let pointer_pos := input_pointer >>> 4
  let pointer_length := input_pointer &&& 15
  let copied :=
    if pointer_pos ≠ 0 then
      copyLoop st.uncompressed_text pointer_length st.coding_pos
        ((st.coding_pos + (4294967296 - pointer_pos)) % 4294967296)
    else (st.uncompressed_text, st.coding_pos)
  { coding_pos := (copied.2 + 1) % 4294967296
    compressed_pointer := (compressed_pointer + 1) % 4294967296
    uncompressed_text := store8 copied.1 copied.2 (compressed_text compressed_pointer) }

/-- The outer loop of `lz77_decompress`, `lz.c` line 62, for at most `fuel`
iterations. -/
def decompressLoop (compressed_text : Mem) (uncompressed_size : Nat) :
    Nat → DecState → DecState
  | 0, st => st
  | fuel + 1, st =>
    if st.coding_pos < uncompressed_size then
      decompressLoop compressed_text uncompressed_size fuel (decompressStep compressed_text st)
    else st

/-- State of `lz77_decompress` after at most `fuel` iterations of its outer loop. -/
def decompressRun (fuel : Nat) (compressed_text uncompressed_text : Mem) : DecState :=
  decompressLoop compressed_text (load32 compressed_text 0) fuel
    { coding_pos := 0, compressed_pointer := 4, uncompressed_text := uncompressed_text }

/-- The function `lz77_decompress`: the returned `coding_pos` and the final
contents of `uncompressed_text`, or `none` when the outer loop has not ended
within `fuel` iterations. -/
def lz77_decompress (fuel : Nat) (compressed_text uncompressed_text : Mem) :
    Option (Nat × Mem) :=
  let st := decompressRun fuel compressed_text uncompressed_text
  if st.coding_pos < load32 compressed_text 0 then none
  else some (st.coding_pos, st.uncompressed_text)

/-- The number of bytes the decoder stores for the token read at
`compressed_pointer`, `lz.c` lines 66-71: the `pointer_length` copied bytes and
the literal when `pointer_pos` is not 0, the literal alone when it is 0. -/
def tokenSpan (compressed_text : Mem) (compressed_pointer : Nat) : Nat :=
  if readPointer compressed_text compressed_pointer >>> 4 ≠ 0 then
    (readPointer compressed_text compressed_pointer &&& 15) + 1
  else 1

/-- Ghost list of the outer loop of `lz77_decompress`: for every token processed
within `fuel` iterations, the number of bytes it produced. -/
def decompressSpans (compressed_text : Mem) (uncompressed_size : Nat) :
    Nat → DecState → List Nat
  | 0, _ => []
  | fuel + 1, st =>
    if st.coding_pos < uncompressed_size then
      tokenSpan compressed_text st.compressed_pointer ::
        decompressSpans compressed_text uncompressed_size fuel
          (decompressStep compressed_text st)
    else []

/-- The ghost list of a call of `lz77_decompress`. -/
def decompressRunSpans (fuel : Nat) (compressed_text uncompressed_text : Mem) : List Nat :=
  decompressSpans compressed_text (load32 compressed_text 0) fuel
    { coding_pos := 0, compressed_pointer := 4, uncompressed_text := uncompressed_text }

/-- The test made by `file_lz77_decompress`, `lz.c` lines 131-135:
`uncompressed_size = *((uint32_t *) compressed_text);` and
`if(lz77_decompress(compressed_text, uncompressed_text) != uncompressed_size) return 0;`.
The value is `true` when the decoded output is accepted, `none` when the decoder
has not returned within `fuel` iterations. -/
def file_lz77_decompress_accepts (fuel : Nat) (compressed_text uncompressed_text : Mem) :
    Option Bool :=
  (lz77_decompress fuel compressed_text uncompressed_text).map
    (fun r => decide (r.1 = load32 compressed_text 0))

/-! ## Wire format -/

/-- The header of the wire format: a 32-bit length, little-endian. -/
def headerBytes (n : Nat) : List Nat :=
  [n % 256, n / 256 % 256, n / 65536 % 256, n / 16777216 % 256]

/-- The three bytes of a token in the wire format: the 16-bit word
`distance << 4 | length`, little-endian, then the literal. -/
def tokenBytes (distance length literal : Nat) : List Nat :=
  [((distance <<< 4) ||| length) % 256, ((distance <<< 4) ||| length) / 256, literal]

/-- The wire image of the tokens of a list of encoder steps. -/
def streamBytes : List Emitted → List Nat
  | [] => []
  | e :: l => tokenBytes e.distance e.length e.literal ++ streamBytes l

/-! ## Match finder contract -/

/-- Follows the contract of the match finder, not the code: the number of
consecutive equal bytes between the runs starting at `a` and at `b`, counted up
to `cap`. -/
def specEqualRun (text : Mem) (a b : Nat) : Nat → Nat
  | 0 => 0
  | cap + 1 => if text a = text b then 1 + specEqualRun text (a + 1) (b + 1) cap else 0

/-- Follows the contract of the match finder, not the code: the maximum, over
the candidate distances `d` in `[1, min(4095, p)]`, of the number of consecutive
equal bytes between the runs starting at `p - d` and at `p`, capped at 15. -/
def specBestLength (text : Mem) (p : Nat) : Nat :=
  ((List.range (min 4095 p)).map (fun j => specEqualRun text (p - (j + 1)) p 15)).foldr max 0

/-- Follows the contract of the match finder, not the code: the number of
consecutive equal bytes between the runs starting at `a` and at `b` inside a
buffer of length `n` (with `a < b`, the run starting at `b` ends at the end of
the buffer), counted up to `cap`. -/
def specEqualRunIn (text : Mem) (n a b : Nat) : Nat → Nat
  | 0 => 0
  | cap + 1 =>
    if b < n ∧ text a = text b then 1 + specEqualRunIn text n (a + 1) (b + 1) cap else 0

/-- Follows the contract of the match finder, not the code: the maximum, over
the candidate distances `d` in `[1, min(4095, p)]`, of the number of consecutive
equal bytes between the runs starting at `p - d` and at `p` inside a buffer of
length `n`, capped at 15. -/
def specBestLengthIn (text : Mem) (n p : Nat) : Nat :=
  ((List.range (min 4095 p)).map
    (fun j => specEqualRunIn text n (p - (j + 1)) p 15)).foldr max 0

theorem store8_same (m : Mem) (a v : Nat) : store8 m a v a = v := by
  simp [store8]

theorem store8_other (m : Mem) (a v i : Nat) (h : i ≠ a) : store8 m a v i = m i := by
  simp [store8, h]

theorem store32_at0 (m : Mem) (a v : Nat) : store32 m a v a = v % 256 := by
  simp [store32, store8]

theorem store32_at1 (m : Mem) (a v : Nat) : store32 m a v (a + 1) = v / 256 % 256 := by
  simp [store32, store8]

theorem store32_at2 (m : Mem) (a v : Nat) : store32 m a v (a + 2) = v / 65536 % 256 := by
  simp [store32, store8]

theorem store32_at3 (m : Mem) (a v : Nat) : store32 m a v (a + 3) = v / 16777216 % 256 := by
  simp [store32, store8]

theorem store32_other (m : Mem) (a v i : Nat) (h : i < a ∨ a + 3 < i) :
    store32 m a v i = m i := by
  have h0 : i ≠ a := by omega
  have h1 : i ≠ a + 1 := by omega
  have h2 : i ≠ a + 2 := by omega
  have h3 : i ≠ a + 3 := by omega
  simp [store32, store8, h0, h1, h2, h3]

theorem shiftLeft4_or (d l : Nat) (hl : l ≤ 15) : (d <<< 4) ||| l = 16 * d + l := by
  have h := Nat.mul_add_lt_is_or (i := 4) (b := l) (by omega) d
  rw [Nat.shiftLeft_eq, Nat.mul_comm]
  exact h.symm

theorem packPointer_eq (d l : Nat) (hd : d ≤ 4095) (hl : l ≤ 15) :
    packPointer d l = 16 * d + l := by
  unfold packPointer
  rw [shiftLeft4_or d l hl]
  omega

theorem shiftRight4 (w : Nat) : w >>> 4 = w / 16 := by
  rw [Nat.shiftRight_eq_div_pow]

theorem and15 (w : Nat) : w &&& 15 = w % 16 :=
  Nat.and_pow_two_sub_one_eq_mod w 4

theorem bytes_succ (m : Mem) (n : Nat) : bytes m (n + 1) = bytes m n ++ [m n] := by
  simp [bytes, List.range_succ]

theorem bytes_congr (m m2 : Mem) (n : Nat) (h : ∀ i, i < n → m i = m2 i) :
    bytes m n = bytes m2 n := by
  unfold bytes
  apply List.map_congr_left
  intro i hi
  exact h i (List.mem_range.mp hi)

/-! ## The match-growth loop -/

theorem matchLength_spec (text : Mem) :
    ∀ (fuel la lb t : Nat), t ≤ 15 → 16 ≤ fuel + t → la + (15 - t) < 4294967296 →
      lb + (15 - t) < 4294967296 →
      t ≤ matchLength text fuel la lb t ∧ matchLength text fuel la lb t ≤ 15 ∧
      (∀ i, i < matchLength text fuel la lb t - t → text (la + i) = text (lb + i)) ∧
      (matchLength text fuel la lb t < 15 →
        text (la + (matchLength text fuel la lb t - t)) ≠
          text (lb + (matchLength text fuel la lb t - t))) := by
  intro fuel
  induction fuel with
  | zero => intro la lb t ht hf; omega
  | succ fuel ih =>
    intro la lb t ht hf hla hlb
    unfold matchLength
    by_cases heq : text la = text lb
    · rw [if_pos heq]
      by_cases h15 : t = 15
      · rw [if_pos h15]
        refine ⟨le_refl _, ht, ?_, ?_⟩
        · intro i hi; omega
        · intro h; omega
      · rw [if_neg h15]
        have e1 : (la + 1) % 4294967296 = la + 1 := Nat.mod_eq_of_lt (by omega)
        have e2 : (lb + 1) % 4294967296 = lb + 1 := Nat.mod_eq_of_lt (by omega)
        rw [e1, e2]
        obtain ⟨h1, h2, h3, h4⟩ :=
          ih (la + 1) (lb + 1) (t + 1) (by omega) (by omega) (by omega) (by omega)
        refine ⟨by omega, h2, ?_, ?_⟩
        · intro i hi
          cases i with
          | zero => simpa using heq
          | succ j =>
            have := h3 j (by omega)
            rw [show la + (j + 1) = la + 1 + j by omega, show lb + (j + 1) = lb + 1 + j by omega]
            exact this
        · intro hlt
          have := h4 hlt
          have e : matchLength text fuel (la + 1) (lb + 1) (t + 1) - t =
              1 + (matchLength text fuel (la + 1) (lb + 1) (t + 1) - (t + 1)) := by omega
          rw [e, ← Nat.add_assoc, ← Nat.add_assoc]
          exact this
    · rw [if_neg heq]
      refine ⟨le_refl _, ht, ?_, ?_⟩
      · intro i hi; omega
      · intro _
        simpa using heq

theorem candLength_agree (text : Mem) (p c : Nat) (hp : p + 15 < 4294967296) :
    ∀ i, i < candLength text p c → text (p - c + i) = text (p + i) := by
  intro i hi
  have h := (matchLength_spec text 16 p (p - c) 0 (by omega) (by omega) (by omega)
    (by omega)).2.2.1 i (by simpa [candLength] using hi)
  exact h.symm

theorem candLength_stop (text : Mem) (p c : Nat) (hp : p + 15 < 4294967296)
    (h : candLength text p c < 15) :
    text (p - c + candLength text p c) ≠ text (p + candLength text p c) := by
  have h4 := (matchLength_spec text 16 p (p - c) 0 (by omega) (by omega) (by omega)
    (by omega)).2.2.2 h
  intro e
  apply h4
  simpa [candLength] using e.symm

theorem matchLength_succ (text : Mem) (fuel la lb t : Nat) :
    matchLength text (fuel + 1) la lb t =
      if text la = text lb then
        if t = 15 then t
        else matchLength text fuel ((la + 1) % 4294967296) ((lb + 1) % 4294967296) (t + 1)
      else t := rfl

/-- Sixteen units of fuel are enough for the growth loop: more fuel does not
change its result. -/
theorem matchLength_fuel (text : Mem) :
    ∀ (fuel la lb t : Nat), t ≤ 15 → 16 ≤ fuel + t →
      matchLength text (fuel + 1) la lb t = matchLength text fuel la lb t := by
  intro fuel
  induction fuel with
  | zero => intro la lb t h1 h2; omega
  | succ fuel ih =>
    intro la lb t h1 h2
    conv_lhs => rw [matchLength_succ]
    conv_rhs => rw [matchLength_succ]
    by_cases heq : text la = text lb
    · rw [if_pos heq, if_pos heq]
      by_cases h15 : t = 15
      · rw [if_pos h15, if_pos h15]
      · rw [if_neg h15, if_neg h15]
        exact ih _ _ _ (by omega) (by omega)
    · rw [if_neg heq, if_neg heq]

/-- Any common prefix of at most 15 bytes is counted by the growth loop. -/
theorem candLength_max (text : Mem) (p c r : Nat) (hp : p + 15 < 4294967296) (hr : r ≤ 15)
    (h : ∀ i, i < r → text (p - c + i) = text (p + i)) : r ≤ candLength text p c := by
  by_contra hlt
  have hlt2 : candLength text p c < r := by omega
  exact candLength_stop text p c hp (by omega) (h _ hlt2)

theorem matchLength_le (text : Mem) :
    ∀ (fuel la lb t : Nat), t ≤ 15 → matchLength text fuel la lb t ≤ 15 := by
  intro fuel
  induction fuel with
  | zero => intro la lb t ht; simpa [matchLength] using ht
  | succ fuel ih =>
    intro la lb t ht
    unfold matchLength
    split
    · split
      · exact ht
      · exact ih _ _ _ (by omega)
    · exact ht

theorem candLength_le15 (text : Mem) (p c : Nat) : candLength text p c ≤ 15 :=
  matchLength_le text 16 p (p - c) 0 (by omega)

/-! ## The candidate loop -/

theorem searchLoop_spec (text : Mem) (p : Nat) :
    ∀ (fuel tpp pp pl : Nat), 1 ≤ tpp → tpp ≤ 4096 → tpp ≤ p + 1 → 4096 < fuel + tpp →
      pl ≤ 15 →
      (pl = 0 → pp = 0) →
      (0 < pl → 1 ≤ pp ∧ pp < tpp ∧ candLength text p pp = pl) →
      (∀ c, 1 ≤ c → c < pp → candLength text p c < pl) →
      (∀ c, 1 ≤ c → c < tpp → candLength text p c ≤ pl) →
      ((searchLoop text p fuel tpp pp pl).2 = 0 → (searchLoop text p fuel tpp pp pl).1 = 0) ∧
      (0 < (searchLoop text p fuel tpp pp pl).2 →
        1 ≤ (searchLoop text p fuel tpp pp pl).1 ∧ (searchLoop text p fuel tpp pp pl).1 ≤ 4095 ∧
        (searchLoop text p fuel tpp pp pl).1 ≤ p ∧
        candLength text p (searchLoop text p fuel tpp pp pl).1 =
          (searchLoop text p fuel tpp pp pl).2) ∧
      (∀ c, 1 ≤ c → c < (searchLoop text p fuel tpp pp pl).1 →
        candLength text p c < (searchLoop text p fuel tpp pp pl).2) ∧
      (∀ c, 1 ≤ c → c ≤ 4095 → c ≤ p →
        candLength text p c ≤ (searchLoop text p fuel tpp pp pl).2) ∧
      (searchLoop text p fuel tpp pp pl).2 ≤ 15 := by
  intro fuel
  induction fuel with
  | zero => intro tpp pp pl h1 h2 h3 h4; omega
  | succ fuel ih =>
    intro tpp pp pl h1 h2 h3 h4 hpl hz hpos htie hmax
    unfold searchLoop
    by_cases hc : tpp < 4096 ∧ tpp ≤ p
    · rw [if_pos hc]
      simp only []
      by_cases hgt : candLength text p tpp > pl
      · rw [if_pos hgt]
        by_cases h15 : candLength text p tpp = 15
        · rw [if_pos h15]
          refine ⟨?_, ?_, ?_, ?_, ?_⟩
          · intro h; simp only [] at h; omega
          · intro _; exact ⟨h1, by omega, hc.2, rfl⟩
          · intro c hc1 hc2
            have := hmax c hc1 hc2
            simp only []
            omega
          · intro c _ _ _
            have := candLength_le15 text p c
            simp only []
            omega
          · simp only []; omega
        · rw [if_neg h15]
          have hle := candLength_le15 text p tpp
          apply ih (tpp + 1) tpp (candLength text p tpp) (by omega) (by omega) (by omega)
            (by omega) hle
          · intro h; omega
          · intro _; exact ⟨h1, by omega, rfl⟩
          · intro c hc1 hc2
            have := hmax c hc1 hc2
            omega
          · intro c hc1 hc2
            by_cases hct : c = tpp
            · subst hct; exact le_refl _
            · have := hmax c hc1 (by omega)
              omega
      · rw [if_neg hgt]
        apply ih (tpp + 1) pp pl (by omega) (by omega) (by omega) (by omega) hpl hz
        · intro h
          obtain ⟨a, b, c⟩ := hpos h
          exact ⟨a, by omega, c⟩
        · exact htie
        · intro c hc1 hc2
          by_cases hct : c = tpp
          · subst hct; omega
          · exact hmax c hc1 (by omega)
    · rw [if_neg hc]
      refine ⟨hz, ?_, htie, ?_, hpl⟩
      · intro h
        obtain ⟨a, b, c⟩ := hpos h
        exact ⟨a, by omega, by omega, c⟩
      · intro c hc1 hc2 hc3
        exact hmax c hc1 (by omega)

theorem searchLoop_succ (text : Mem) (p fuel tpp pp pl : Nat) :
    searchLoop text p (fuel + 1) tpp pp pl =
      if tpp < 4096 ∧ tpp ≤ p then
        if candLength text p tpp > pl then
          if candLength text p tpp = 15 then (tpp, candLength text p tpp)
          else searchLoop text p fuel (tpp + 1) tpp (candLength text p tpp)
        else searchLoop text p fuel (tpp + 1) pp pl
      else (pp, pl) := rfl

/-- The 4096 units of fuel of `findMatch` are enough for the candidate loop:
more fuel does not change its result. -/
theorem searchLoop_fuel (text : Mem) (p : Nat) :
    ∀ (fuel tpp pp pl : Nat), 4096 < fuel + tpp →
      searchLoop text p (fuel + 1) tpp pp pl = searchLoop text p fuel tpp pp pl := by
  intro fuel
  induction fuel with
  | zero =>
    intro tpp pp pl h
    rw [searchLoop_succ, if_neg (by omega)]
    rfl
  | succ fuel ih =>
    intro tpp pp pl h
    conv_lhs => rw [searchLoop_succ]
    conv_rhs => rw [searchLoop_succ]
    by_cases hc : tpp < 4096 ∧ tpp ≤ p
    · rw [if_pos hc, if_pos hc]
      by_cases hgt : candLength text p tpp > pl
      · rw [if_pos hgt, if_pos hgt]
        by_cases h15 : candLength text p tpp = 15
        · rw [if_pos h15, if_pos h15]
        · rw [if_neg h15, if_neg h15]
          exact ih _ _ _ (by omega)
      · rw [if_neg hgt, if_neg hgt]
        exact ih _ _ _ (by omega)
    · rw [if_neg hc, if_neg hc]

/-- The match finder returns a candidate of maximal length, the nearest one. -/
theorem findMatch_spec (text : Mem) (p : Nat) :
    ((findMatch text p).2 = 0 → (findMatch text p).1 = 0) ∧
    (0 < (findMatch text p).2 →
      1 ≤ (findMatch text p).1 ∧ (findMatch text p).1 ≤ 4095 ∧ (findMatch text p).1 ≤ p ∧
      candLength text p (findMatch text p).1 = (findMatch text p).2) ∧
    (∀ c, 1 ≤ c → c < (findMatch text p).1 → candLength text p c < (findMatch text p).2) ∧
    (∀ c, 1 ≤ c → c ≤ 4095 → c ≤ p → candLength text p c ≤ (findMatch text p).2) ∧
    (findMatch text p).2 ≤ 15 := by
  unfold findMatch
  apply searchLoop_spec text p 4096 1 0 0 (by omega) (by omega) (by omega) (by omega) (by omega)
  · intro _; rfl
  · intro h; omega
  · intro c h1 h2; omega
  · intro c h1 h2; omega

/-- The bytes counted by the found match are equal. -/
theorem findMatch_agree (text : Mem) (p : Nat) (hp : p + 15 < 4294967296) :
    ∀ i, i < (findMatch text p).2 →
      text (p - (findMatch text p).1 + i) = text (p + i) := by
  intro i hi
  obtain ⟨_, h1, _, _, _⟩ := findMatch_spec text p
  obtain ⟨_, _, _, d⟩ := h1 (by omega)
  exact candLength_agree text p _ hp i (by rw [d]; exact hi)

/-- No candidate has a common run of up to 15 bytes longer than the found
length. -/
theorem findMatch_longest (text : Mem) (p : Nat) (hp : p + 15 < 4294967296) (c r : Nat)
    (hc1 : 1 ≤ c) (hc2 : c ≤ min 4095 p) (hr : r ≤ 15)
    (hag : ∀ i, i < r → text (p - c + i) = text (p + i)) : r ≤ (findMatch text p).2 := by
  have h3 := (findMatch_spec text p).2.2.2.1 c hc1 (by omega) (by omega)
  have := candLength_max text p c r hp hr hag
  omega

theorem specEqualRun_spec (text : Mem) :
    ∀ (cap a b : Nat), specEqualRun text a b cap ≤ cap ∧
      (∀ i, i < specEqualRun text a b cap → text (a + i) = text (b + i)) ∧
      (specEqualRun text a b cap < cap →
        text (a + specEqualRun text a b cap) ≠ text (b + specEqualRun text a b cap)) := by
  intro cap
  induction cap with
  | zero =>
    intro a b
    refine ⟨le_refl _, ?_, ?_⟩
    · intro i hi; simp [specEqualRun] at hi
    · intro h; simp [specEqualRun] at h
  | succ cap ih =>
    intro a b
    unfold specEqualRun
    by_cases heq : text a = text b
    · rw [if_pos heq]
      obtain ⟨h1, h2, h3⟩ := ih (a + 1) (b + 1)
      refine ⟨by omega, ?_, ?_⟩
      · intro i hi
        cases i with
        | zero => simpa using heq
        | succ j =>
          have := h2 j (by omega)
          rw [show a + (j + 1) = a + 1 + j by omega, show b + (j + 1) = b + 1 + j by omega]
          exact this
      · intro hlt
        have := h3 (by omega)
        rw [← Nat.add_assoc, ← Nat.add_assoc]
        exact this
    · rw [if_neg heq]
      refine ⟨by omega, ?_, ?_⟩
      · intro i hi; omega
      · intro _; simpa using heq

/-- Below the 32-bit limit the growth loop counts the equal run capped at 15. -/
theorem candLength_eq_specEqualRun (text : Mem) (p c : Nat) (hp : p + 15 < 4294967296) :
    candLength text p c = specEqualRun text (p - c) p 15 := by
  obtain ⟨s1, s2, s3⟩ := specEqualRun_spec text 15 (p - c) p
  have c1 := candLength_le15 text p c
  have c2 := candLength_agree text p c hp
  rcases Nat.lt_trichotomy (candLength text p c) (specEqualRun text (p - c) p 15) with h | h | h
  · exact absurd (s2 _ h) (candLength_stop text p c hp (by omega))
  · exact h
  · exact absurd (c2 _ h) (s3 (by omega))

theorem foldr_max_eq (L : List Nat) (l : Nat) (hle : ∀ x ∈ L, x ≤ l) (hmem : l ∈ L ∨ l = 0) :
    L.foldr max 0 = l := by
  induction L with
  | nil =>
    rcases hmem with h | h
    · simp at h
    · simp [h]
  | cons a L ih =>
    simp only [List.foldr_cons]
    have ha := hle a (List.mem_cons_self a L)
    by_cases hl : l ∈ L ∨ l = 0
    · rw [ih (fun x hx => hle x (List.mem_cons_of_mem a hx)) hl]
      exact Nat.max_eq_right ha
    · have hal : l = a := by
        rcases hmem with h | h
        · rcases List.mem_cons.mp h with h2 | h2
          · exact h2
          · exact absurd (Or.inl h2) hl
        · exact absurd (Or.inr h) hl
      subst hal
      have hb : L.foldr max 0 ≤ l := by
        clear ih hl hmem ha
        induction L with
        | nil => simp
        | cons b L ih2 =>
          simp only [List.foldr_cons]
          exact Nat.max_le.mpr ⟨hle b (List.mem_cons_of_mem _ (List.mem_cons_self b L)),
            ih2 (fun x hx => by
              rcases List.mem_cons.mp hx with h | h
              · exact hle x (by rw [h]; exact List.mem_cons_self _ _)
              · exact hle x (List.mem_cons_of_mem _ (List.mem_cons_of_mem _ h)))⟩
      exact Nat.max_eq_left hb

/-- The found length is the maximum named by the contract of the match finder. -/
theorem findMatch_eq_specBestLength (text : Mem) (p : Nat) (hp : p + 15 < 4294967296) :
    (findMatch text p).2 = specBestLength text p := by
  obtain ⟨h0, h1, _, h3, _⟩ := findMatch_spec text p
  unfold specBestLength
  symm
  apply foldr_max_eq
  · intro x hx
    obtain ⟨j, hj, rfl⟩ := List.mem_map.mp hx
    have hj2 := List.mem_range.mp hj
    rw [← candLength_eq_specEqualRun text p (j + 1) hp]
    exact h3 (j + 1) (by omega) (by omega) (by omega)
  · by_cases hz : (findMatch text p).2 = 0
    · exact Or.inr hz
    · left
      obtain ⟨a, b, c, d⟩ := h1 (by omega)
      apply List.mem_map.mpr
      refine ⟨(findMatch text p).1 - 1, List.mem_range.mpr (by omega), ?_⟩
      rw [show (findMatch text p).1 - 1 + 1 = (findMatch text p).1 by omega,
        ← candLength_eq_specEqualRun text p _ hp, d]

/-! ## One outer step of the encoder -/

theorem emitAt_pos (text : Mem) (N p : Nat) : (emitAt text N p).pos = p := by
  unfold emitAt
  simp only []
  split <;> rfl

theorem emitAt_distance (text : Mem) (N p : Nat) :
    (emitAt text N p).distance = (findMatch text p).1 := by
  unfold emitAt
  simp only []
  split <;> rfl

theorem emitAt_found (text : Mem) (N p : Nat) :
    (emitAt text N p).found = (findMatch text p).2 := by
  unfold emitAt
  simp only []
  split <;> rfl

theorem emitAt_length (text : Mem) (N p : Nat) :
    (emitAt text N p).length =
      if (findMatch text p).2 ≠ 0 ∧ (p + (findMatch text p).2) % 4294967296 = N
      then (findMatch text p).2 - 1 else (findMatch text p).2 := by
  unfold emitAt
  simp only []
  split <;> rfl

theorem emitAt_literal (text : Mem) (N p : Nat) :
    (emitAt text N p).literal =
      if (findMatch text p).2 ≠ 0 ∧ (p + (findMatch text p).2) % 4294967296 = N
      then text (((p + (findMatch text p).2) % 4294967296 + 4294967295) % 4294967296)
      else text ((p + (findMatch text p).2) % 4294967296) := by
  unfold emitAt
  simp only []
  split <;> rfl

theorem emitAt_length_le (text : Mem) (N p : Nat) :
    (emitAt text N p).length ≤ (emitAt text N p).found := by
  rw [emitAt_length, emitAt_found]
  split <;> omega

theorem emitAt_found_le (text : Mem) (N p : Nat) : (emitAt text N p).found ≤ 15 := by
  rw [emitAt_found]
  exact (findMatch_spec text p).2.2.2.2

theorem emitAt_distance_le (text : Mem) (N p : Nat) :
    (emitAt text N p).distance ≤ 4095 ∧ (emitAt text N p).distance ≤ p := by
  rw [emitAt_distance]
  obtain ⟨h0, h1, _, _, _⟩ := findMatch_spec text p
  by_cases h : (findMatch text p).2 = 0
  · rw [h0 h]; omega
  · obtain ⟨_, a, b, _⟩ := h1 (by omega)
    exact ⟨a, b⟩

/-! ## The outer loop of the encoder -/

theorem compressStep_emitted (text : Mem) (N : Nat) (st : CompState) :
    (compressStep text N st).emitted = st.emitted ++ [emitAt text N st.coding_pos] := rfl

theorem compressStep_coding_pos (text : Mem) (N : Nat) (st : CompState) :
    (compressStep text N st).coding_pos =
      ((st.coding_pos + (findMatch text st.coding_pos).2) % 4294967296 + 1) % 4294967296 := by
  unfold compressStep
  simp only [emitAt_found]

theorem compressLoop_succ (text : Mem) (N fuel : Nat) (st : CompState) :
    compressLoop text N (fuel + 1) st =
      if st.coding_pos < N then compressLoop text N fuel (compressStep text N st) else st := rfl

/-- Every record of the ghost list was produced by a step of the loop, at a
coding position below the input size, or was there before the loop ran. -/
theorem compressLoop_emitted (text : Mem) (N : Nat) :
    ∀ (fuel : Nat) (st : CompState) (e : Emitted),
      e ∈ (compressLoop text N fuel st).emitted →
      e ∈ st.emitted ∨ (e.pos < N ∧ e = emitAt text N e.pos) := by
  intro fuel
  induction fuel with
  | zero => intro st e h; exact Or.inl h
  | succ fuel ih =>
    intro st e h
    rw [compressLoop_succ] at h
    by_cases hc : st.coding_pos < N
    · rw [if_pos hc] at h
      rcases ih _ e h with h1 | h1
      · rw [compressStep_emitted] at h1
        rcases List.mem_append.mp h1 with h2 | h2
        · exact Or.inl h2
        · right
          have he : e = emitAt text N st.coding_pos := by simpa using h2
          have hp : e.pos = st.coding_pos := by rw [he, emitAt_pos]
          rw [hp]
          exact ⟨hc, he⟩
      · exact Or.inr h1
    · rw [if_neg hc] at h
      exact Or.inl h

theorem compressRun_emitted (fuel : Nat) (text : Mem) (N : Nat) (out : Mem) (e : Emitted)
    (h : e ∈ (compressRun fuel text N out).emitted) :
    e.pos < N ∧ e = emitAt text N e.pos := by
  rcases compressLoop_emitted text N fuel _ e h with h1 | h1
  · simp [compressInit] at h1
  · exact h1

/-! ## Token layout -/

theorem writeToken_at0 (m : Mem) (a w c : Nat) (ha : a + 2 < 4294967296) :
    writeToken m a w c a = w % 256 := by
  unfold writeToken
  rw [Nat.mod_eq_of_lt ha, store8_other _ _ _ _ (by omega), store32_at0]

theorem writeToken_at1 (m : Mem) (a w c : Nat) (ha : a + 2 < 4294967296) :
    writeToken m a w c (a + 1) = w / 256 % 256 := by
  unfold writeToken
  rw [Nat.mod_eq_of_lt ha, store8_other _ _ _ _ (by omega), store32_at1]

theorem writeToken_at2 (m : Mem) (a w c : Nat) (ha : a + 2 < 4294967296) :
    writeToken m a w c (a + 2) = c := by
  unfold writeToken
  rw [Nat.mod_eq_of_lt ha, store8_same]

theorem writeToken_at3 (m : Mem) (a w c : Nat) (ha : a + 2 < 4294967296) :
    writeToken m a w c (a + 3) = w / 16777216 % 256 := by
  unfold writeToken
  rw [Nat.mod_eq_of_lt ha, store8_other _ _ _ _ (by omega), store32_at3]

theorem writeToken_other (m : Mem) (a w c i : Nat) (ha : a + 2 < 4294967296)
    (h : i < a ∨ a + 3 < i) : writeToken m a w c i = m i := by
  unfold writeToken
  rw [Nat.mod_eq_of_lt ha, store8_other _ _ _ _ (by omega), store32_other _ _ _ _ h]

theorem readPointer_writeToken (m : Mem) (a w c : Nat) (ha : a + 2 < 4294967296)
    (hw : w < 65536) : readPointer (writeToken m a w c) a = w := by
  unfold readPointer load32
  rw [writeToken_at0 m a w c ha, writeToken_at1 m a w c ha, writeToken_at2 m a w c ha,
    writeToken_at3 m a w c ha]
  omega

theorem token_bit_layout_aux (m : Mem) (a d l c : Nat) (ha : a + 2 < 4294967296)
    (hd : d ≤ 4095) (hl : l ≤ 15) :
    [writeToken m a (packPointer d l) c a, writeToken m a (packPointer d l) c (a + 1),
      writeToken m a (packPointer d l) c (a + 2)] = tokenBytes d l c := by
  have hp := packPointer_eq d l hd hl
  have ho := shiftLeft4_or d l hl
  rw [writeToken_at0 m a _ c ha, writeToken_at1 m a _ c ha, writeToken_at2 m a _ c ha]
  unfold tokenBytes
  rw [hp, ho]
  have : (16 * d + l) / 256 % 256 = (16 * d + l) / 256 := by omega
  rw [this]

/-- C3. For a distance `d ≤ 4095`, a length `l ≤ 15` and a literal `c`, the word
packed by the encoder is `d << 4 | l` and fits in 16 bits; the stores of the
encoder leave the three bytes `[(d<<4|l) mod 256, (d<<4|l) div 256, c]` at the
output position; and the decoder, reading its word back from there, unpacks
`word >> 4 = d` and `word & 15 = l`. -/
theorem token_bit_layout (m : Mem) (a d l c : Nat) (ha : a + 2 < 4294967296)
    (hd : d ≤ 4095) (hl : l ≤ 15) :
    packPointer d l = (d <<< 4) ||| l ∧ (d <<< 4) ||| l < 65536 ∧
    [writeToken m a (packPointer d l) c a, writeToken m a (packPointer d l) c (a + 1),
      writeToken m a (packPointer d l) c (a + 2)] = tokenBytes d l c ∧
    readPointer (writeToken m a (packPointer d l) c) a >>> 4 = d ∧
    readPointer (writeToken m a (packPointer d l) c) a &&& 15 = l := by
  have hp := packPointer_eq d l hd hl
  have ho := shiftLeft4_or d l hl
  refine ⟨by rw [hp, ho], by omega, ?_, ?_, ?_⟩
  · exact token_bit_layout_aux m a d l c ha hd hl
  · rw [readPointer_writeToken m a _ c ha (by omega), shiftRight4, hp]
    omega
  · rw [readPointer_writeToken m a _ c ha (by omega), and15, hp]
    omega

/-- C3, witness: the token (distance 3, length 2, literal 'C') is written as the
bytes 32 00 43 (hexadecimal) and read back as (3, 2). -/
theorem token_bit_layout_witness :
    packPointer 3 2 = 50 ∧ tokenBytes 3 2 67 = [50, 0, 67] ∧
    [writeToken (fun _ => 0) 4 (packPointer 3 2) 67 4,
      writeToken (fun _ => 0) 4 (packPointer 3 2) 67 5,
      writeToken (fun _ => 0) 4 (packPointer 3 2) 67 6] = [50, 0, 67] ∧
    readPointer (writeToken (fun _ => 0) 4 (packPointer 3 2) 67) 4 >>> 4 = 3 ∧
    readPointer (writeToken (fun _ => 0) 4 (packPointer 3 2) 67) 4 &&& 15 = 2 :=
  have h := token_bit_layout (fun _ => 0) 4 3 2 67 (by decide) (by decide) (by decide)
  ⟨by decide, by decide, h.2.2.1.trans (by decide), h.2.2.2.1, h.2.2.2.2⟩

/-! ## Match finder -/

/-- The search loop seen over the memory behind the pointer, whatever the
input size.  At a coding position `p` (with `p + 15` representable in 32 bits)
the pair `(distance, length)` left by the search loop is `(0, 0)`, and then no
candidate distance in `[1, min(4095, p)]` matches even one byte, or it has
`1 ≤ distance ≤ min(4095, p)`, `1 ≤ length` and `text[p - distance + i] =
text[p + i]` for every `i < length`.  In both cases `length` is the maximum over
the candidate distances of min(15, number of consecutive equal bytes between the
runs starting at `p - d` and at `p`): it equals `specBestLength`, it is at most
15, the run at `distance` stops after `length` bytes when `length < 15`, and no
candidate has a common run of `r ≤ 15` bytes with `r > length`. -/
theorem match_finder_correct (text : Mem) (p : Nat) (hp : p + 15 < 4294967296) :
    (((findMatch text p).1 = 0 ∧ (findMatch text p).2 = 0 ∧
        ∀ c, 1 ≤ c → c ≤ min 4095 p → text (p - c) ≠ text p) ∨
      (1 ≤ (findMatch text p).1 ∧ (findMatch text p).1 ≤ min 4095 p ∧
        1 ≤ (findMatch text p).2 ∧
        ∀ i, i < (findMatch text p).2 →
          text (p - (findMatch text p).1 + i) = text (p + i))) ∧
    (findMatch text p).2 = specBestLength text p ∧
    (findMatch text p).2 ≤ 15 ∧
    (1 ≤ (findMatch text p).1 → (findMatch text p).2 < 15 →
      text (p - (findMatch text p).1 + (findMatch text p).2) ≠
        text (p + (findMatch text p).2)) ∧
    (∀ c r, 1 ≤ c → c ≤ min 4095 p → r ≤ 15 →
      (∀ i, i < r → text (p - c + i) = text (p + i)) → r ≤ (findMatch text p).2) := by
  obtain ⟨h0, h1, _, _, h4⟩ := findMatch_spec text p
  have hmax : ∀ c r, 1 ≤ c → c ≤ min 4095 p → r ≤ 15 →
      (∀ i, i < r → text (p - c + i) = text (p + i)) → r ≤ (findMatch text p).2 :=
    fun c r hc1 hc2 hr hag => findMatch_longest text p hp c r hc1 hc2 hr hag
  refine ⟨?_, findMatch_eq_specBestLength text p hp, h4, ?_, hmax⟩
  · by_cases hz : (findMatch text p).2 = 0
    · left
      refine ⟨h0 hz, hz, ?_⟩
      intro c hc1 hc2 heq
      have := hmax c 1 hc1 hc2 (by omega) (by
        intro i hi
        have : i = 0 := by omega
        subst this
        simpa using heq)
      omega
    · right
      obtain ⟨a, b, c, d⟩ := h1 (by omega)
      exact ⟨a, by omega, by omega, findMatch_agree text p hp⟩
  · intro hd hlt
    have hpos : 0 < (findMatch text p).2 := by
      by_contra hn
      have := h0 (by omega)
      omega
    obtain ⟨_, _, _, d⟩ := h1 hpos
    have := candLength_stop text p (findMatch text p).1 hp (by rw [d]; exact hlt)
    rw [d] at this
    exact this

/-- Example for the memory-level statement: in "ABCABC" at position 3 the search finds distance 3 and
length 3, the maximum of the capped equal runs of the candidates 1, 2, 3 (which
are 0, 0 and 3). -/
theorem match_finder_correct_witness :
    findMatch (memOfList [65, 66, 67, 65, 66, 67]) 3 = (3, 3) ∧
    specBestLength (memOfList [65, 66, 67, 65, 66, 67]) 3 = 3 ∧
    3 ≤ (findMatch (memOfList [65, 66, 67, 65, 66, 67]) 3).2 ∧
    (findMatch (memOfList [65, 66, 67, 65, 66, 67]) 3).2 ≤ 15 :=
  have h := match_finder_correct (memOfList [65, 66, 67, 65, 66, 67]) 3 (by decide)
  ⟨by decide, h.2.1.symm.trans (by decide),
    h.2.2.2.2 3 3 (by decide) (by decide) (by decide) (by decide), h.2.2.1⟩

/-! ## Emission modes -/

/-- C7. Every token emitted by `lz77_compress` has a length field of at most 15
and a distance field of at most 4095, and its distance is at most the coding
position at which the token was produced. -/
theorem token_field_bounds (fuel : Nat) (text : Mem) (N : Nat) (out : Mem) (e : Emitted)
    (h : e ∈ (compressRun fuel text N out).emitted) :
    e.length ≤ 15 ∧ e.distance ≤ 4095 ∧ e.distance ≤ e.pos := by
  obtain ⟨_, he⟩ := compressRun_emitted fuel text N out e h
  have h1 := emitAt_length_le text N e.pos
  have h2 := emitAt_found_le text N e.pos
  have h3 := emitAt_distance_le text N e.pos
  rw [← he] at h1 h2 h3
  exact ⟨by omega, h3.1, h3.2⟩

/-- C7, witness: the last token of "ABCABC". -/
theorem token_field_bounds_witness :
    ({ pos := 3, distance := 3, found := 3, length := 2, literal := 67 } : Emitted) ∈
      (compressRun 6 (memOfList [65, 66, 67, 65, 66, 67]) 6 (fun _ => 0)).emitted ∧
    (2 ≤ 15 ∧ 3 ≤ 4095 ∧ 3 ≤ 3) :=
  ⟨by decide, token_field_bounds 6 (memOfList [65, 66, 67, 65, 66, 67]) 6 (fun _ => 0)
    { pos := 3, distance := 3, found := 3, length := 2, literal := 67 } (by decide)⟩

/-- C9 as stated fails: on the two bytes "AA" the second token has distance 1
and length field 0. -/
theorem distance_zero_iff_length_zero_fails :
    ¬ ∀ e ∈ (compressRun 2 (memOfList [65, 65]) 2 (fun _ => 0)).emitted,
      (e.distance = 0 ↔ e.length = 0) := by
  intro h
  have h1 := h { pos := 1, distance := 1, found := 1, length := 0, literal := 65 } (by decide)
  exact absurd (h1.mpr rfl) (by decide)

/-- C9, amended. Every token emitted by `lz77_compress` with distance 0 has
length field 0; a token with length field 0 has distance 0 unless it is a
boundary-mode token, made from a found match of length 1 that ends exactly at
the end of the input. -/
theorem distance_zero_length_zero (fuel : Nat) (text : Mem) (N : Nat) (out : Mem)
    (e : Emitted) (h : e ∈ (compressRun fuel text N out).emitted) :
    (e.distance = 0 → e.length = 0) ∧
    (e.length = 0 → e.distance = 0 ∨ (1 ≤ e.distance ∧ e.found = 1 ∧ e.pos + 1 = N)) := by
  obtain ⟨hlt, he⟩ := compressRun_emitted fuel text N out e h
  obtain ⟨h0, h1, _, _, h4⟩ := findMatch_spec text e.pos
  have hd := congrArg Emitted.distance he
  have hf := congrArg Emitted.found he
  have hl := congrArg Emitted.length he
  rw [emitAt_distance] at hd
  rw [emitAt_found] at hf
  rw [emitAt_length] at hl
  constructor
  · intro hz
    have hz2 : (findMatch text e.pos).2 = 0 := by
      by_contra hn
      have := (h1 (by omega)).1
      omega
    rw [hl]
    split <;> omega
  · intro hz
    rw [hl] at hz
    split at hz
    · rename_i hb
      right
      have hpos := (h1 (by omega)).1
      refine ⟨by omega, by omega, ?_⟩
      have hb2 := hb.2
      omega
    · left
      rw [hd]
      exact h0 hz

/-- C9, witness of the amended statement: the boundary token of "AA". -/
theorem distance_zero_length_zero_witness :
    ({ pos := 1, distance := 1, found := 1, length := 0, literal := 65 } : Emitted) ∈
      (compressRun 2 (memOfList [65, 65]) 2 (fun _ => 0)).emitted ∧
    ((1 = 0 → 0 = 0) ∧ (0 = 0 → 1 = 0 ∨ (1 ≤ 1 ∧ 1 = 1 ∧ 1 + 1 = 2))) :=
  ⟨by decide, distance_zero_length_zero 2 (memOfList [65, 65]) 2 (fun _ => 0)
    { pos := 1, distance := 1, found := 1, length := 0, literal := 65 } (by decide)⟩

theorem compressLoop_done (text : Mem) (N fuel : Nat) (st : CompState)
    (h : ¬ st.coding_pos < N) : compressLoop text N fuel st = st := by
  cases fuel with
  | zero => rfl
  | succ fuel => rw [compressLoop_succ, if_neg h]

/-- C5. Boundary mode: at a step started at coding position `p` whose found
match has `length > 0` and `p + length = N`, the encoder records and stores the
token `(distance, length - 1, text[N - 1])`, whose length field is smaller than
the found length, and the outer loop ends after this step: the token is the
last one. -/
theorem boundary_mode_step (text : Mem) (N : Nat) (st : CompState) (hN : N + 1 < 4294967296)
    (hpos : 0 < (findMatch text st.coding_pos).2)
    (hend : st.coding_pos + (findMatch text st.coding_pos).2 = N) :
    (compressStep text N st).emitted = st.emitted ++
      [{ pos := st.coding_pos, distance := (findMatch text st.coding_pos).1,
         found := (findMatch text st.coding_pos).2,
         length := (findMatch text st.coding_pos).2 - 1,
         literal := text (N - 1) }] ∧
    (findMatch text st.coding_pos).2 - 1 < (findMatch text st.coding_pos).2 ∧
    (compressStep text N st).compressed_text =
      writeToken st.compressed_text st.compressed_pointer
        (packPointer (findMatch text st.coding_pos).1 ((findMatch text st.coding_pos).2 - 1))
        (text (N - 1)) ∧
    ¬ (compressStep text N st).coding_pos < N ∧
    ∀ fuel, compressLoop text N (fuel + 1) st = compressStep text N st := by
  have hm : (st.coding_pos + (findMatch text st.coding_pos).2) % 4294967296 = N := by
    rw [hend]; exact Nat.mod_eq_of_lt (by omega)
  have hc : (findMatch text st.coding_pos).2 ≠ 0 ∧
      (st.coding_pos + (findMatch text st.coding_pos).2) % 4294967296 = N :=
    ⟨by omega, hm⟩
  have hlit : (N + 4294967295) % 4294967296 = N - 1 := by omega
  have he : emitAt text N st.coding_pos =
      { pos := st.coding_pos, distance := (findMatch text st.coding_pos).1,
        found := (findMatch text st.coding_pos).2,
        length := (findMatch text st.coding_pos).2 - 1,
        literal := text (N - 1) } := by
    unfold emitAt
    simp only []
    rw [if_pos hc, hm, hlit]
  have hstop : ¬ (compressStep text N st).coding_pos < N := by
    rw [compressStep_coding_pos, hm]
    omega
  refine ⟨by rw [compressStep_emitted, he], by omega, ?_, hstop, ?_⟩
  · unfold compressStep
    simp only []
    rw [he]
  · intro fuel
    rw [compressLoop_succ, if_pos (by omega), compressLoop_done text N fuel _ hstop]

/-- C5, witness: on "ABCABC" the step at position 3 finds the match (3, 3),
which reaches the last input byte, and emits (3, 2, 'C'); the output is the
header 06 00 00 00 followed by the tokens (0,0,'A'), (0,0,'B'), (0,0,'C'),
(3,2,'C'), the returned size is 16, and decoding gives back "ABCABC" and
returns 6. -/
theorem boundary_mode_step_witness :
    (compressRun 3 (memOfList [65, 66, 67, 65, 66, 67]) 6 (fun _ => 0)).coding_pos = 3 ∧
    findMatch (memOfList [65, 66, 67, 65, 66, 67]) 3 = (3, 3) ∧
    (compressStep (memOfList [65, 66, 67, 65, 66, 67]) 6
      (compressRun 3 (memOfList [65, 66, 67, 65, 66, 67]) 6 (fun _ => 0))).emitted =
      [{ pos := 0, distance := 0, found := 0, length := 0, literal := 65 },
       { pos := 1, distance := 0, found := 0, length := 0, literal := 66 },
       { pos := 2, distance := 0, found := 0, length := 0, literal := 67 },
       { pos := 3, distance := 3, found := 3, length := 2, literal := 67 }] ∧
    (lz77_compress 6 (memOfList [65, 66, 67, 65, 66, 67]) 6 (fun _ => 0)).map
      (fun r => (r.1, bytes r.2 r.1)) =
      some (16, [6, 0, 0, 0, 0, 0, 65, 0, 0, 66, 0, 0, 67, 50, 0, 67]) ∧
    ((lz77_compress 6 (memOfList [65, 66, 67, 65, 66, 67]) 6 (fun _ => 0)).bind
      (fun r => lz77_decompress 6 r.2 (fun _ => 0))).map (fun r => (r.1, bytes r.2 r.1)) =
      some (6, [65, 66, 67, 65, 66, 67]) :=
  have h := boundary_mode_step (memOfList [65, 66, 67, 65, 66, 67]) 6
    (compressRun 3 (memOfList [65, 66, 67, 65, 66, 67]) 6 (fun _ => 0))
    (by decide) (by decide) (by decide)
  ⟨by decide, by decide, h.1.trans (by decide), by decide, by decide⟩

/-! ## Wire format of the output -/

theorem streamBytes_append (l : List Emitted) (e : Emitted) :
    streamBytes (l ++ [e]) = streamBytes l ++ tokenBytes e.distance e.length e.literal := by
  induction l with
  | nil => simp [streamBytes]
  | cons a l ih => simp [streamBytes, ih]

theorem streamBytes_length (l : List Emitted) : (streamBytes l).length = 3 * l.length := by
  induction l with
  | nil => rfl
  | cons a l ih =>
    simp only [streamBytes, List.length_append, ih, List.length_cons, tokenBytes,
      List.length_nil]
    omega

theorem compressLoop_length_mono (text : Mem) (N : Nat) :
    ∀ (fuel : Nat) (st : CompState),
      st.emitted.length ≤ (compressLoop text N fuel st).emitted.length := by
  intro fuel
  induction fuel with
  | zero => intro st; exact le_refl _
  | succ fuel ih =>
    intro st
    rw [compressLoop_succ]
    split
    · have := ih (compressStep text N st)
      rw [compressStep_emitted, List.length_append] at this
      omega
    · exact le_refl _

theorem compressStep_layout (text : Mem) (N : Nat) (st : CompState)
    (hcp : st.compressed_pointer = 4 + 3 * st.emitted.length)
    (hsz : st.output_size = 4 + 3 * st.emitted.length)
    (hby : bytes st.compressed_text (4 + 3 * st.emitted.length) =
      headerBytes N ++ streamBytes st.emitted)
    (hk : 4 + 3 * (st.emitted.length + 1) < 4294967296) :
    (compressStep text N st).compressed_pointer = 4 + 3 * (compressStep text N st).emitted.length ∧
    (compressStep text N st).output_size = 4 + 3 * (compressStep text N st).emitted.length ∧
    bytes (compressStep text N st).compressed_text
        (4 + 3 * (compressStep text N st).emitted.length) =
      headerBytes N ++ streamBytes (compressStep text N st).emitted := by
  have hlen : (compressStep text N st).emitted.length = st.emitted.length + 1 := by
    rw [compressStep_emitted, List.length_append]; rfl
  have hcp2 : (compressStep text N st).compressed_pointer = st.compressed_pointer + 3 := by
    unfold compressStep
    simp only []
    omega
  have hsz2 : (compressStep text N st).output_size = st.output_size + 3 := by
    unfold compressStep
    simp only []
    omega
  refine ⟨by rw [hcp2, hlen, hcp]; omega, by rw [hsz2, hlen, hsz]; omega, ?_⟩
  have hct : (compressStep text N st).compressed_text =
      writeToken st.compressed_text st.compressed_pointer
        (packPointer (emitAt text N st.coding_pos).distance (emitAt text N st.coding_pos).length)
        (emitAt text N st.coding_pos).literal := rfl
  have hd := (emitAt_distance_le text N st.coding_pos).1
  have hl : (emitAt text N st.coding_pos).length ≤ 15 :=
    le_trans (emitAt_length_le text N st.coding_pos) (emitAt_found_le text N st.coding_pos)
  have ha : st.compressed_pointer + 2 < 4294967296 := by omega
  have htok := (token_bit_layout_aux st.compressed_text st.compressed_pointer
    (emitAt text N st.coding_pos).distance (emitAt text N st.coding_pos).length
    (emitAt text N st.coding_pos).literal ha hd hl)
  rw [hlen, show 4 + 3 * (st.emitted.length + 1) = st.compressed_pointer + 1 + 1 + 1 by omega,
    bytes_succ, bytes_succ, bytes_succ, compressStep_emitted, streamBytes_append, hct,
    ← htok, ← List.append_assoc, ← hby, ← hcp]
  have hsame : bytes (writeToken st.compressed_text st.compressed_pointer
        (packPointer (emitAt text N st.coding_pos).distance (emitAt text N st.coding_pos).length)
        (emitAt text N st.coding_pos).literal) st.compressed_pointer =
      bytes st.compressed_text st.compressed_pointer :=
    bytes_congr _ _ _ (fun i hi => writeToken_other _ _ _ _ i ha (Or.inl hi))
  rw [hsame]
  simp

theorem compressLoop_layout (text : Mem) (N : Nat) :
    ∀ (fuel : Nat) (st : CompState),
      st.compressed_pointer = 4 + 3 * st.emitted.length →
      st.output_size = 4 + 3 * st.emitted.length →
      bytes st.compressed_text (4 + 3 * st.emitted.length) =
        headerBytes N ++ streamBytes st.emitted →
      4 + 3 * (compressLoop text N fuel st).emitted.length < 4294967296 →
      (compressLoop text N fuel st).output_size =
        4 + 3 * (compressLoop text N fuel st).emitted.length ∧
      bytes (compressLoop text N fuel st).compressed_text
          (4 + 3 * (compressLoop text N fuel st).emitted.length) =
        headerBytes N ++ streamBytes (compressLoop text N fuel st).emitted := by
  intro fuel
  induction fuel with
  | zero => intro st _ hsz hby _; exact ⟨hsz, hby⟩
  | succ fuel ih =>
    intro st hcp hsz hby hk
    rw [compressLoop_succ] at hk ⊢
    by_cases hc : st.coding_pos < N
    · rw [if_pos hc] at hk ⊢
      have hmono := compressLoop_length_mono text N fuel (compressStep text N st)
      have hlen : (compressStep text N st).emitted.length = st.emitted.length + 1 := by
        rw [compressStep_emitted, List.length_append]; rfl
      obtain ⟨a, b, c⟩ := compressStep_layout text N st hcp hsz hby (by omega)
      exact ih _ a b c hk
    · rw [if_neg hc] at hk ⊢
      exact ⟨hsz, hby⟩

theorem compressLoop_finishes (text : Mem) (N : Nat) (hN : N + 15 < 4294967296) :
    ∀ (fuel : Nat) (st : CompState), N ≤ fuel + st.coding_pos →
      ¬ (compressLoop text N fuel st).coding_pos < N := by
  intro fuel
  induction fuel with
  | zero => intro st h; simp only [compressLoop]; omega
  | succ fuel ih =>
    intro st h
    rw [compressLoop_succ]
    by_cases hc : st.coding_pos < N
    · rw [if_pos hc]
      apply ih
      rw [compressStep_coding_pos]
      have := (findMatch_spec text st.coding_pos).2.2.2.2
      omega
    · rw [if_neg hc]
      exact hc

theorem compressInit_bytes (N : Nat) (out : Mem) :
    bytes (compressInit N out).compressed_text 4 = headerBytes N := by
  have e : (4 : Nat) = 0 + 1 + 1 + 1 + 1 := rfl
  rw [e, bytes_succ, bytes_succ, bytes_succ, bytes_succ]
  simp only [compressInit, bytes, List.range_zero, List.map_nil, List.nil_append,
    List.cons_append, headerBytes]
  have h0 := store32_at0 out 0 N
  have h1 := store32_at1 out 0 N
  have h2 := store32_at2 out 0 N
  have h3 := store32_at3 out 0 N
  simp only [Nat.zero_add] at h0 h1 h2 h3 ⊢
  rw [h0, h1, h2, h3]

/-- C2. For an input of length `N` (with `N + 15` and the size of the output
representable in 32 bits), `lz77_compress` returns, within `N` iterations of its
outer loop, the size `4 + 3 * k`, where `k` is the number of outer encode steps;
the first `4 + 3 * k` bytes of the output are the four bytes of `N`,
little-endian, followed by the `k` three-byte tokens in encode order, with
nothing between or after them. -/
theorem wire_format (fuel : Nat) (text : Mem) (N : Nat) (out : Mem)
    (hN : N + 15 < 4294967296) (hfuel : N ≤ fuel)
    (hsize : 4 + 3 * (compressRun fuel text N out).emitted.length < 4294967296) :
    lz77_compress fuel text N out =
      some (4 + 3 * (compressRun fuel text N out).emitted.length,
        (compressRun fuel text N out).compressed_text) ∧
    bytes (compressRun fuel text N out).compressed_text
        (4 + 3 * (compressRun fuel text N out).emitted.length) =
      headerBytes N ++ streamBytes (compressRun fuel text N out).emitted ∧
    (headerBytes N).length = 4 ∧
    (streamBytes (compressRun fuel text N out).emitted).length =
      3 * (compressRun fuel text N out).emitted.length := by
  have hfin : ¬ (compressRun fuel text N out).coding_pos < N :=
    compressLoop_finishes text N hN fuel (compressInit N out) (by simp [compressInit]; omega)
  obtain ⟨hsz, hby⟩ := compressLoop_layout text N fuel (compressInit N out) rfl rfl
    (by
      have := compressInit_bytes N out
      simpa [compressInit, streamBytes] using this)
    hsize
  refine ⟨?_, hby, rfl, streamBytes_length _⟩
  unfold lz77_compress
  simp only []
  rw [if_neg hfin]
  have hsz2 : (compressRun fuel text N out).output_size =
      4 + 3 * (compressRun fuel text N out).emitted.length := hsz
  rw [hsz2]

/-- C2, witness: the empty input gives the header 00 00 00 00 and size 4; the
input "AB" gives the header 02 00 00 00 and two tokens, size 10. -/
theorem wire_format_witness :
    (lz77_compress 0 (fun _ => 0) 0 (fun _ => 255)).map (fun r => (r.1, bytes r.2 r.1)) =
      some (4, [0, 0, 0, 0]) ∧
    (lz77_compress 2 (memOfList [65, 66]) 2 (fun _ => 255)).map
      (fun r => (r.1, bytes r.2 r.1)) = some (10, [2, 0, 0, 0, 0, 0, 65, 0, 0, 66]) :=
  have h0 := wire_format 0 (fun _ => 0) 0 (fun _ => 255) (by decide) (by decide) (by decide)
  have h2 := wire_format 2 (memOfList [65, 66]) 2 (fun _ => 255) (by decide) (by decide)
    (by decide)
  ⟨(congrArg (Option.map (fun r => (r.1, bytes r.2 r.1))) h0.1).trans (by decide),
   (congrArg (Option.map (fun r => (r.1, bytes r.2 r.1))) h2.1).trans (by decide)⟩

/-! ## Round trip and byte accounting -/

/-- C1 at a failing input. The array holds 'A' 'A' 'A' 'B' and the first two
bytes are compressed (`uncompressed_size = 2`).  The match grown at position 1
runs over the end of the input: the output is the header 02 00 00 00 and the
tokens (0, 0, 'A'), (1, 2, 'B'), and `lz77_decompress` on this output returns 4,
not 2, after storing four bytes. -/
theorem roundtrip_overrun :
    bytes (memOfList [65, 65, 65, 66]) 2 = [65, 65] ∧
    (lz77_compress 2 (memOfList [65, 65, 65, 66]) 2 (fun _ => 0)).map
      (fun r => (r.1, bytes r.2 r.1)) = some (10, [2, 0, 0, 0, 0, 0, 65, 18, 0, 66]) ∧
    ((lz77_compress 2 (memOfList [65, 65, 65, 66]) 2 (fun _ => 0)).bind
      (fun r => lz77_decompress 2 r.2 (fun _ => 0))).map (fun r => (r.1, bytes r.2 r.1)) =
      some (4, [65, 65, 65, 66]) ∧
    ((lz77_compress 2 (memOfList [65, 65, 65, 66]) 2 (fun _ => 0)).bind
      (fun r => lz77_decompress 2 r.2 (fun _ => 0))).map (fun r => r.1) ≠ some 2 := by
  decide

/-- C10 at a failing input. For the first two bytes of the array 'A' 'A' 'A' 'B'
the tokens are (0, 0, 'A') and (1, 2, 'B'): their length fields plus one sum to
4, while the header stores 2. -/
theorem byte_accounting_overrun :
    (compressRun 2 (memOfList [65, 65, 65, 66]) 2 (fun _ => 0)).emitted =
      [{ pos := 0, distance := 0, found := 0, length := 0, literal := 65 },
       { pos := 1, distance := 1, found := 2, length := 2, literal := 66 }] ∧
    ((compressRun 2 (memOfList [65, 65, 65, 66]) 2 (fun _ => 0)).emitted.map
      (fun e => e.length + 1)).sum = 4 ∧
    ((compressRun 2 (memOfList [65, 65, 65, 66]) 2 (fun _ => 0)).emitted.map
      (fun e => e.length + 1)).sum ≠ 2 ∧
    bytes (compressRun 2 (memOfList [65, 65, 65, 66]) 2 (fun _ => 0)).compressed_text 4 =
      headerBytes 2 := by
  decide

/-! ## Runs that stay inside the input

The lemmas of this section describe the runs in which no found match reaches
past the end of the input (`pos + found ≤ N` at every step): there the token
lengths add up to `N` and the decoder rebuilds the input. -/

theorem compressLoop_emitted_sub (text : Mem) (N : Nat) :
    ∀ (fuel : Nat) (st : CompState) (e : Emitted),
      e ∈ st.emitted → e ∈ (compressLoop text N fuel st).emitted := by
  intro fuel
  induction fuel with
  | zero => intro st e h; exact h
  | succ fuel ih =>
    intro st e h
    rw [compressLoop_succ]
    split
    · apply ih
      rw [compressStep_emitted]
      exact List.mem_append_left _ h
    · exact h

theorem emitAt_advance (text : Mem) (N p : Nat) (hp : p < N)
    (hg : p + (findMatch text p).2 ≤ N) (hN : N < 4294967296) :
    p + (emitAt text N p).length + 1 = min (p + (findMatch text p).2 + 1) N := by
  rw [emitAt_length]
  have hm : (p + (findMatch text p).2) % 4294967296 = p + (findMatch text p).2 :=
    Nat.mod_eq_of_lt (by omega)
  rw [hm]
  split
  · rename_i h; omega
  · rename_i h; omega

theorem emitAt_literal_eq (text : Mem) (N p : Nat) (hp : p < N)
    (hg : p + (findMatch text p).2 ≤ N) (hN : N < 4294967296) :
    (emitAt text N p).literal = text (p + (emitAt text N p).length) := by
  rw [emitAt_literal, emitAt_length]
  have hm : (p + (findMatch text p).2) % 4294967296 = p + (findMatch text p).2 :=
    Nat.mod_eq_of_lt (by omega)
  rw [hm]
  split
  · rename_i h
    have : (p + (findMatch text p).2 + 4294967295) % 4294967296 =
        p + ((findMatch text p).2 - 1) := by omega
    rw [this]
  · rfl

/-- Byte accounting of a run that stays inside the input. -/
theorem compressLoop_accounting (text : Mem) (N : Nat) (hN : N + 15 < 4294967296) :
    ∀ (fuel : Nat) (st : CompState),
      (∀ e ∈ (compressLoop text N fuel st).emitted, e.pos + e.found ≤ N) →
      N ≤ fuel + st.coding_pos →
      ((compressLoop text N fuel st).emitted.map (fun e => e.length + 1)).sum =
        (st.emitted.map (fun e => e.length + 1)).sum + (N - st.coding_pos) := by
  intro fuel
  induction fuel with
  | zero =>
    intro st _ h
    simp only [compressLoop]
    omega
  | succ fuel ih =>
    intro st hg h
    rw [compressLoop_succ] at hg ⊢
    by_cases hc : st.coding_pos < N
    · rw [if_pos hc] at hg ⊢
      have hle := (findMatch_spec text st.coding_pos).2.2.2.2
      have hcp := compressStep_coding_pos text N st
      have hmod : ((st.coding_pos + (findMatch text st.coding_pos).2) % 4294967296 + 1) %
          4294967296 = st.coding_pos + (findMatch text st.coding_pos).2 + 1 := by omega
      rw [hmod] at hcp
      have hmem : emitAt text N st.coding_pos ∈
          (compressLoop text N fuel (compressStep text N st)).emitted := by
        apply compressLoop_emitted_sub
        rw [compressStep_emitted]
        exact List.mem_append_right _ (List.mem_singleton.mpr rfl)
      have hin := hg _ hmem
      rw [emitAt_pos, emitAt_found] at hin
      have hadv := emitAt_advance text N st.coding_pos hc hin (by omega)
      rw [ih (compressStep text N st) hg (by omega), compressStep_emitted, List.map_append,
        List.sum_append, hcp]
      simp only [List.map_cons, List.map_nil, List.sum_cons, List.sum_nil]
      omega
    · rw [if_neg hc]
      omega

/-- When the byte that follows the input differs from each of the last
`min(4095, N)` bytes of the input, no match reaches past the end of the input. -/
theorem findMatch_inside (text : Mem) (N p : Nat) (hN : N + 15 < 4294967296) (hp : p < N)
    (hs : ∀ d, 1 ≤ d → d ≤ min 4095 N → text (N - d) ≠ text N) :
    p + (findMatch text p).2 ≤ N := by
  by_contra hlt
  obtain ⟨_, h1, _, _, _⟩ := findMatch_spec text p
  obtain ⟨a, b, c, _⟩ := h1 (by omega)
  have hag := findMatch_agree text p (by omega) (N - p) (by omega)
  have e1 : p - (findMatch text p).1 + (N - p) = N - (findMatch text p).1 := by omega
  have e2 : p + (N - p) = N := by omega
  rw [e1, e2] at hag
  exact hs (findMatch text p).1 a (by omega) hag

/-! ## The decoder on the output of the encoder -/

theorem copyLoop_spec (text : Mem) (d : Nat) (hd : 1 ≤ d) :
    ∀ (l : Nat) (m : Mem) (c : Nat), d ≤ c → c + l < 4294967296 →
      (∀ i, i < c → m i = text i) →
      (∀ i, i < l → text (c - d + i) = text (c + i)) →
      (copyLoop m l c (c - d)).2 = c + l ∧
      ∀ i, i < c + l → (copyLoop m l c (c - d)).1 i = text i := by
  intro l
  induction l with
  | zero =>
    intro m c _ _ hm _
    exact ⟨rfl, hm⟩
  | succ l ih =>
    intro m c hdc hcl hm hag
    unfold copyLoop
    have e1 : (c + 1) % 4294967296 = c + 1 := Nat.mod_eq_of_lt (by omega)
    have e2 : (c - d + 1) % 4294967296 = c + 1 - d := by omega
    rw [e1, e2]
    have h0 := hag 0 (by omega)
    simp only [Nat.add_zero] at h0
    obtain ⟨r1, r2⟩ := ih (store8 m c (m (c - d))) (c + 1) (by omega) (by omega)
      (by
        intro i hi
        by_cases hic : i = c
        · subst hic
          rw [store8_same, hm (i - d) (by omega)]
          exact h0
        · rw [store8_other _ _ _ _ hic]
          exact hm i (by omega))
      (by
        intro i hi
        have := hag (i + 1) (by omega)
        rw [show c + 1 - d + i = c - d + (i + 1) by omega,
          show c + 1 + i = c + (i + 1) by omega]
        exact this)
    refine ⟨by rw [r1]; omega, ?_⟩
    intro i hi
    exact r2 i (by omega)

theorem readPointer_of_bytes (F : Mem) (a w : Nat) (hw : w < 65536)
    (h0 : F a = w % 256) (h1 : F (a + 1) = w / 256 % 256) : readPointer F a = w := by
  unfold readPointer load32
  rw [h0, h1]
  omega

/-- One decoder step on a token written by the encoder at position `p`, when
the found match stays inside the input. -/
theorem decompressStep_emitAt (text F m : Mem) (N p cp : Nat) (hN : N + 15 < 4294967296)
    (hp : p < N) (hcp : cp + 3 < 4294967296)
    (hg : p + (findMatch text p).2 ≤ N)
    (hb0 : F cp =
      packPointer (emitAt text N p).distance (emitAt text N p).length % 256)
    (hb1 : F (cp + 1) =
      packPointer (emitAt text N p).distance (emitAt text N p).length / 256 % 256)
    (hb2 : F (cp + 2) = (emitAt text N p).literal)
    (hm : ∀ i, i < p → m i = text i) :
    (decompressStep F ⟨p, cp, m⟩).coding_pos = p + (emitAt text N p).length + 1 ∧
    (decompressStep F ⟨p, cp, m⟩).compressed_pointer = cp + 3 ∧
    ∀ i, i < p + (emitAt text N p).length + 1 →
      (decompressStep F ⟨p, cp, m⟩).uncompressed_text i = text i := by
  have hd := emitAt_distance_le text N p
  have hll := emitAt_length_le text N p
  have hfl := emitAt_found_le text N p
  have hf := emitAt_found text N p
  have hdd := emitAt_distance text N p
  have hpk := packPointer_eq (emitAt text N p).distance (emitAt text N p).length hd.1
    (by omega)
  have hrd : readPointer F cp =
      16 * (emitAt text N p).distance + (emitAt text N p).length := by
    rw [← hpk]
    exact readPointer_of_bytes F cp _ (by rw [hpk]; omega) hb0 hb1
  have hpp : readPointer F cp >>> 4 = (emitAt text N p).distance := by
    rw [hrd, shiftRight4]; omega
  have hpl : readPointer F cp &&& 15 = (emitAt text N p).length := by
    rw [hrd, and15]; omega
  have hlit := emitAt_literal_eq text N p hp hg (by omega)
  have hc2 : (cp + 2) % 4294967296 = cp + 2 := Nat.mod_eq_of_lt (by omega)
  have hc3 : (cp + 2 + 1) % 4294967296 = cp + 3 := by omega
  unfold decompressStep
  simp only [hpp, hpl, hc2, hc3, hb2, hlit]
  by_cases hz : (emitAt text N p).distance = 0
  · -- no back-reference: the found length is 0
    rw [hz]
    simp only [ne_eq, not_true_eq_false, if_false]
    have hfz : (findMatch text p).2 = 0 := by
      by_contra hn
      have := ((findMatch_spec text p).2.1 (by omega)).1
      omega
    have hlz : (emitAt text N p).length = 0 := by omega
    rw [hlz]
    refine ⟨by omega, trivial, ?_⟩
    intro i hi
    by_cases hip : i = p
    · subst hip; simp [store8]
    · rw [store8_other _ _ _ _ (by omega)]
      exact hm i (by omega)
  · rw [if_pos hz]
    have ho : (p + (4294967296 - (emitAt text N p).distance)) % 4294967296 =
        p - (emitAt text N p).distance := by omega
    rw [ho]
    have hag : ∀ i, i < (emitAt text N p).length →
        text (p - (emitAt text N p).distance + i) = text (p + i) := by
      intro i hi
      rw [hdd]
      exact findMatch_agree text p (by omega) i (by omega)
    obtain ⟨r1, r2⟩ := copyLoop_spec text (emitAt text N p).distance (by omega)
      (emitAt text N p).length m p hd.2 (by omega) hm hag
    rw [r1]
    refine ⟨by omega, trivial, ?_⟩
    intro i hi
    by_cases hip : i = p + (emitAt text N p).length
    · subst hip; simp [store8]
    · rw [store8_other _ _ _ _ hip]
      exact r2 i (by omega)

theorem compressStep_pointer (text : Mem) (N : Nat) (st : CompState)
    (h : st.compressed_pointer + 3 < 4294967296) :
    (compressStep text N st).compressed_pointer = st.compressed_pointer + 3 := by
  unfold compressStep
  simp only []
  omega

/-- The encoder never rewrites a byte below its output pointer. -/
theorem compressLoop_frame (text : Mem) (N : Nat) :
    ∀ (fuel : Nat) (st : CompState),
      st.compressed_pointer = 4 + 3 * st.emitted.length →
      4 + 3 * (compressLoop text N fuel st).emitted.length < 4294967296 →
      ∀ i, i < st.compressed_pointer →
        (compressLoop text N fuel st).compressed_text i = st.compressed_text i := by
  intro fuel
  induction fuel with
  | zero => intro st _ _ i _; rfl
  | succ fuel ih =>
    intro st hcp hk i hi
    rw [compressLoop_succ] at hk ⊢
    by_cases hc : st.coding_pos < N
    · rw [if_pos hc] at hk ⊢
      have hmono := compressLoop_length_mono text N fuel (compressStep text N st)
      have hlen : (compressStep text N st).emitted.length = st.emitted.length + 1 := by
        rw [compressStep_emitted, List.length_append]; rfl
      have hp3 := compressStep_pointer text N st (by omega)
      rw [ih (compressStep text N st) (by rw [hp3, hlen, hcp]; omega) hk i (by omega)]
      exact writeToken_other _ _ _ _ i (by omega) (Or.inl hi)
    · rw [if_neg hc]

theorem decompressLoop_succ (F : Mem) (N fuel : Nat) (ds : DecState) :
    decompressLoop F N (fuel + 1) ds =
      if ds.coding_pos < N then decompressLoop F N fuel (decompressStep F ds) else ds := rfl

/-- The decoder follows the encoder token by token on a run that stays inside
the input. -/
theorem decompressLoop_compressLoop (text : Mem) (N : Nat) (hN : N + 15 < 4294967296) :
    ∀ (fuel : Nat) (st : CompState) (m : Mem),
      st.compressed_pointer = 4 + 3 * st.emitted.length →
      4 + 3 * (compressLoop text N fuel st).emitted.length < 4294967296 →
      (∀ e ∈ (compressLoop text N fuel st).emitted, e.pos + e.found ≤ N) →
      N ≤ fuel + st.coding_pos →
      (∀ i, i < min st.coding_pos N → m i = text i) →
      (decompressLoop (compressLoop text N fuel st).compressed_text N fuel
        { coding_pos := min st.coding_pos N, compressed_pointer := st.compressed_pointer,
          uncompressed_text := m }).coding_pos = N ∧
      ∀ i, i < N →
        (decompressLoop (compressLoop text N fuel st).compressed_text N fuel
          { coding_pos := min st.coding_pos N, compressed_pointer := st.compressed_pointer,
            uncompressed_text := m }).uncompressed_text i = text i := by
  intro fuel
  induction fuel with
  | zero =>
    intro st m _ _ _ h hm
    have e : min st.coding_pos N = N := by omega
    simp only [decompressLoop, e, true_and]
    intro i hi
    exact hm i (by omega)
  | succ fuel ih =>
    intro st m hcp hk hg h hm
    by_cases hc : st.coding_pos < N
    · have hfin : compressLoop text N (fuel + 1) st =
          compressLoop text N fuel (compressStep text N st) := by
        rw [compressLoop_succ, if_pos hc]
      rw [hfin] at hk hg ⊢
      have hmin : min st.coding_pos N = st.coding_pos := by omega
      have hmono := compressLoop_length_mono text N fuel (compressStep text N st)
      have hlen : (compressStep text N st).emitted.length = st.emitted.length + 1 := by
        rw [compressStep_emitted, List.length_append]; rfl
      have hp3 := compressStep_pointer text N st (by omega)
      have hcp1 : (compressStep text N st).compressed_pointer =
          4 + 3 * (compressStep text N st).emitted.length := by
        rw [hp3, hlen, hcp]; omega
      have hframe := compressLoop_frame text N fuel (compressStep text N st) hcp1 hk
      have hct : (compressStep text N st).compressed_text =
          writeToken st.compressed_text st.compressed_pointer
            (packPointer (emitAt text N st.coding_pos).distance
              (emitAt text N st.coding_pos).length)
            (emitAt text N st.coding_pos).literal := rfl
      have ha : st.compressed_pointer + 2 < 4294967296 := by omega
      have hmem : emitAt text N st.coding_pos ∈
          (compressLoop text N fuel (compressStep text N st)).emitted := by
        apply compressLoop_emitted_sub
        rw [compressStep_emitted]
        exact List.mem_append_right _ (List.mem_singleton.mpr rfl)
      have hin := hg _ hmem
      rw [emitAt_pos, emitAt_found] at hin
      have hle := (findMatch_spec text st.coding_pos).2.2.2.2
      obtain ⟨s1, s2, s3⟩ := decompressStep_emitAt text
        (compressLoop text N fuel (compressStep text N st)).compressed_text m N
        st.coding_pos st.compressed_pointer hN hc (by omega) hin
        (by rw [hframe _ (by omega), hct, writeToken_at0 _ _ _ _ ha])
        (by rw [hframe _ (by omega), hct, writeToken_at1 _ _ _ _ ha])
        (by rw [hframe _ (by omega), hct, writeToken_at2 _ _ _ _ ha])
        (by intro i hi; exact hm i (by omega))
      have hadv := emitAt_advance text N st.coding_pos hc hin (by omega)
      have hcpos := compressStep_coding_pos text N st
      have hmod : ((st.coding_pos + (findMatch text st.coding_pos).2) % 4294967296 + 1) %
          4294967296 = st.coding_pos + (findMatch text st.coding_pos).2 + 1 := by omega
      rw [hmod] at hcpos
      rw [decompressLoop_succ, hmin, if_pos hc]
      have hds : decompressStep
          (compressLoop text N fuel (compressStep text N st)).compressed_text
          { coding_pos := st.coding_pos, compressed_pointer := st.compressed_pointer,
            uncompressed_text := m } =
          { coding_pos := min (compressStep text N st).coding_pos N,
            compressed_pointer := (compressStep text N st).compressed_pointer,
            uncompressed_text := (decompressStep
              (compressLoop text N fuel (compressStep text N st)).compressed_text
              { coding_pos := st.coding_pos, compressed_pointer := st.compressed_pointer,
                uncompressed_text := m }).uncompressed_text } := by
        rw [hcpos, ← hadv, hp3, ← s1, ← s2]
      rw [hds]
      exact ih (compressStep text N st) _ hcp1 hk hg (by omega)
        (by
          intro i hi
          rw [hcpos, ← hadv] at hi
          exact s3 i hi)
    · have hfin : compressLoop text N (fuel + 1) st = st := by
        rw [compressLoop_succ, if_neg hc]
      have e : min st.coding_pos N = N := by omega
      rw [hfin, decompressLoop_succ, e]
      simp only [lt_self_iff_false, if_false, true_and]
      intro i hi
      exact hm i (by omega)

theorem load32_header (F : Mem) (N : Nat) (hN : N < 4294967296) (h0 : F 0 = N % 256)
    (h1 : F 1 = N / 256 % 256) (h2 : F 2 = N / 65536 % 256)
    (h3 : F 3 = N / 16777216 % 256) : load32 F 0 = N := by
  unfold load32
  simp only [Nat.zero_add]
  rw [h0, h1, h2, h3]
  omega

theorem compressRun_header (fuel : Nat) (text : Mem) (N : Nat) (out : Mem)
    (hN : N < 4294967296)
    (hsize : 4 + 3 * (compressRun fuel text N out).emitted.length < 4294967296) :
    load32 (compressRun fuel text N out).compressed_text 0 = N := by
  have hframe := compressLoop_frame text N fuel (compressInit N out) rfl hsize
  have e0 := hframe 0 (by simp [compressInit])
  have e1 := hframe 1 (by simp [compressInit])
  have e2 := hframe 2 (by simp [compressInit])
  have e3 := hframe 3 (by simp [compressInit])
  have h0 := store32_at0 out 0 N
  have h1 := store32_at1 out 0 N
  have h2 := store32_at2 out 0 N
  have h3 := store32_at3 out 0 N
  simp only [Nat.zero_add] at h0 h1 h2 h3
  apply load32_header _ N hN
  · exact e0.trans h0
  · exact e1.trans h1
  · exact e2.trans h2
  · exact e3.trans h3

/-- Round trip of a run that stays inside the input: if no step found a match
reaching past the end of the input, the decoder returns `N` and its first `N`
output bytes are the input. -/
theorem roundtrip_inside (fuel : Nat) (text : Mem) (N : Nat) (out out2 : Mem)
    (hN : N + 15 < 4294967296) (hfuel : N ≤ fuel)
    (hsize : 4 + 3 * (compressRun fuel text N out).emitted.length < 4294967296)
    (hg : ∀ e ∈ (compressRun fuel text N out).emitted, e.pos + e.found ≤ N) :
    lz77_compress fuel text N out =
      some ((compressRun fuel text N out).output_size,
        (compressRun fuel text N out).compressed_text) ∧
    ∃ m, lz77_decompress fuel (compressRun fuel text N out).compressed_text out2 =
        some (N, m) ∧ bytes m N = bytes text N := by
  have hfin : ¬ (compressRun fuel text N out).coding_pos < N :=
    compressLoop_finishes text N hN fuel (compressInit N out) (by simp [compressInit]; omega)
  have hhead := compressRun_header fuel text N out (by omega) hsize
  obtain ⟨d1, d2⟩ := decompressLoop_compressLoop text N hN fuel (compressInit N out) out2
    rfl hsize hg (by simp [compressInit]; omega) (by
      intro i hi
      simp [compressInit] at hi)
  have hmin : min (compressInit N out).coding_pos N = 0 := by simp [compressInit]
  rw [hmin] at d1 d2
  constructor
  · unfold lz77_compress
    simp only []
    rw [if_neg hfin]
  · refine ⟨(decompressRun fuel (compressRun fuel text N out).compressed_text
      out2).uncompressed_text, ?_, ?_⟩
    · unfold lz77_decompress
      simp only []
      have hd : (decompressRun fuel (compressRun fuel text N out).compressed_text
          out2).coding_pos = N := by
        unfold decompressRun
        rw [hhead]
        exact d1
      rw [hhead, hd, if_neg (by omega)]
    · apply bytes_congr
      intro i hi
      unfold decompressRun
      rw [hhead]
      exact d2 i hi

/-- The outer loop takes at most one step per input byte. -/
theorem compressLoop_steps_le (text : Mem) (N : Nat) (hN : N + 15 < 4294967296) :
    ∀ (fuel : Nat) (st : CompState),
      st.emitted.length ≤ st.coding_pos → st.emitted.length ≤ N →
      (compressLoop text N fuel st).emitted.length ≤ N := by
  intro fuel
  induction fuel with
  | zero => intro st _ h; exact h
  | succ fuel ih =>
    intro st h1 h2
    rw [compressLoop_succ]
    by_cases hc : st.coding_pos < N
    · rw [if_pos hc]
      have hle := (findMatch_spec text st.coding_pos).2.2.2.2
      have hlen : (compressStep text N st).emitted.length = st.emitted.length + 1 := by
        rw [compressStep_emitted, List.length_append]; rfl
      apply ih
      · rw [hlen, compressStep_coding_pos]; omega
      · rw [hlen]; omega
    · rw [if_neg hc]
      exact h2

theorem compressRun_steps_le (fuel : Nat) (text : Mem) (N : Nat) (out : Mem)
    (hN : N + 15 < 4294967296) : (compressRun fuel text N out).emitted.length ≤ N :=
  compressLoop_steps_le text N hN fuel (compressInit N out) (by simp [compressInit])
    (by simp [compressInit])

/-- Round trip for an input followed by a byte that cannot continue a match:
when `text[N]` differs from each of the last `min(4095, N)` bytes of the input,
`lz77_decompress` applied to the output of `lz77_compress` returns `N` and
rebuilds the `N` input bytes. -/
theorem roundtrip_terminated (fuel : Nat) (text : Mem) (N : Nat) (out out2 : Mem)
    (hN : 4 + 3 * N < 4294967296) (hfuel : N ≤ fuel)
    (hs : ∀ d, 1 ≤ d → d ≤ min 4095 N → text (N - d) ≠ text N) :
    ∃ size ct m, lz77_compress fuel text N out = some (size, ct) ∧
      lz77_decompress fuel ct out2 = some (N, m) ∧ bytes m N = bytes text N := by
  have hk := compressRun_steps_le fuel text N out (by omega)
  obtain ⟨h1, m, h2, h3⟩ := roundtrip_inside fuel text N out out2 (by omega) hfuel (by omega)
    (by
      intro e he
      obtain ⟨hp, hee⟩ := compressRun_emitted fuel text N out e he
      have := findMatch_inside text N e.pos (by omega) hp hs
      have hf := congrArg Emitted.found hee
      rw [emitAt_found] at hf
      omega)
  exact ⟨_, _, m, h1, h2, h3⟩

/-- Byte accounting for an input followed by a byte that cannot continue a
match: the length fields plus one add up to `N`. -/
theorem accounting_terminated (fuel : Nat) (text : Mem) (N : Nat) (out : Mem)
    (hN : N + 15 < 4294967296) (hfuel : N ≤ fuel)
    (hs : ∀ d, 1 ≤ d → d ≤ min 4095 N → text (N - d) ≠ text N) :
    ((compressRun fuel text N out).emitted.map (fun e => e.length + 1)).sum = N := by
  have h := compressLoop_accounting text N hN fuel (compressInit N out)
    (by
      intro e he
      obtain ⟨hp, hee⟩ := compressRun_emitted fuel text N out e he
      have := findMatch_inside text N e.pos hN hp hs
      have hf := congrArg Emitted.found hee
      rw [emitAt_found] at hf
      omega)
    (by simp [compressInit]; omega)
  simpa [compressRun, compressInit] using h

/-! ## One step of the decoder -/

theorem copyLoop_cursor :
    ∀ (l c o : Nat) (m : Mem), c + l < 4294967296 → (copyLoop m l c o).2 = c + l := by
  intro l
  induction l with
  | zero => intro c o m _; rfl
  | succ l ih =>
    intro c o m h
    unfold copyLoop
    rw [Nat.mod_eq_of_lt (show c + 1 < 4294967296 by omega), ih _ _ _ (by omega)]
    omega

theorem copyLoop_below :
    ∀ (l c o : Nat) (m : Mem), c + l < 4294967296 →
      ∀ j, j < c → (copyLoop m l c o).1 j = m j := by
  intro l
  induction l with
  | zero => intro c o m _ j _; rfl
  | succ l ih =>
    intro c o m h j hj
    unfold copyLoop
    rw [Nat.mod_eq_of_lt (show c + 1 < 4294967296 by omega), ih _ _ _ (by omega) j (by omega),
      store8_other _ _ _ _ (by omega)]

theorem copyLoop_above :
    ∀ (l c o : Nat) (m : Mem), c + l < 4294967296 →
      ∀ j, c + l ≤ j → (copyLoop m l c o).1 j = m j := by
  intro l
  induction l with
  | zero => intro c o m _ j _; rfl
  | succ l ih =>
    intro c o m h j hj
    unfold copyLoop
    rw [Nat.mod_eq_of_lt (show c + 1 < 4294967296 by omega), ih _ _ _ (by omega) j (by omega),
      store8_other _ _ _ _ (by omega)]

/-- Every byte stored by the back-copy equals, in the final memory, the byte
`d` places before it. -/
theorem copyLoop_back (d : Nat) (hd : 1 ≤ d) :
    ∀ (l c : Nat) (m : Mem), d ≤ c → c + l < 4294967296 →
      ∀ i, i < l → (copyLoop m l c (c - d)).1 (c + i) = (copyLoop m l c (c - d)).1 (c + i - d) := by
  intro l
  induction l with
  | zero => intro c m _ _ i hi; omega
  | succ l ih =>
    intro c m hdc h i hi
    unfold copyLoop
    have e1 : (c + 1) % 4294967296 = c + 1 := Nat.mod_eq_of_lt (by omega)
    have e2 : (c - d + 1) % 4294967296 = c + 1 - d := by omega
    rw [e1, e2]
    cases i with
    | zero =>
      simp only [Nat.add_zero]
      rw [copyLoop_below l (c + 1) _ _ (by omega) c (by omega),
        copyLoop_below l (c + 1) _ _ (by omega) (c - d) (by omega), store8_same,
        store8_other _ _ _ _ (by omega)]
    | succ k =>
      have := ih (c + 1) (store8 m c (m (c - d))) (by omega) (by omega) k (by omega)
      rw [show c + (k + 1) = c + 1 + k by omega]
      exact this

theorem decompressStep_copy (ct : Mem) (st : DecState)
    (h : readPointer ct st.compressed_pointer >>> 4 ≠ 0) :
    decompressStep ct st =
      { coding_pos := ((copyLoop st.uncompressed_text
            (readPointer ct st.compressed_pointer &&& 15) st.coding_pos
            ((st.coding_pos + (4294967296 - readPointer ct st.compressed_pointer >>> 4)) %
              4294967296)).2 + 1) % 4294967296
        compressed_pointer := ((st.compressed_pointer + 2) % 4294967296 + 1) % 4294967296
        uncompressed_text := store8 (copyLoop st.uncompressed_text
            (readPointer ct st.compressed_pointer &&& 15) st.coding_pos
            ((st.coding_pos + (4294967296 - readPointer ct st.compressed_pointer >>> 4)) %
              4294967296)).1
          (copyLoop st.uncompressed_text
            (readPointer ct st.compressed_pointer &&& 15) st.coding_pos
            ((st.coding_pos + (4294967296 - readPointer ct st.compressed_pointer >>> 4)) %
              4294967296)).2
          (ct ((st.compressed_pointer + 2) % 4294967296)) } := by
  unfold decompressStep
  simp only [h, ne_eq, not_false_eq_true, if_true]

theorem decompressStep_literal (ct : Mem) (st : DecState)
    (h : readPointer ct st.compressed_pointer >>> 4 = 0) :
    decompressStep ct st =
      { coding_pos := (st.coding_pos + 1) % 4294967296
        compressed_pointer := ((st.compressed_pointer + 2) % 4294967296 + 1) % 4294967296
        uncompressed_text := store8 st.uncompressed_text st.coding_pos
          (ct ((st.compressed_pointer + 2) % 4294967296)) } := by
  unfold decompressStep
  simp only [h, ne_eq, not_true_eq_false, if_false]

theorem readPointer_distance_le (ct : Mem) (cp : Nat) : readPointer ct cp >>> 4 ≤ 4095 := by
  rw [shiftRight4]
  unfold readPointer
  omega

theorem readPointer_length_le (ct : Mem) (cp : Nat) : readPointer ct cp &&& 15 ≤ 15 := by
  rw [and15]
  omega

/-- C18. For a token whose distance field is 0, whatever its length field, one
step of `lz77_decompress` changes the output only at the cursor, where it stores
the literal, and advances the cursor by exactly 1: the token produces 1 byte. -/
theorem zero_distance_literal (ct : Mem) (st : DecState)
    (hz : readPointer ct st.compressed_pointer >>> 4 = 0)
    (hc : st.coding_pos + 1 < 4294967296) (hcp : st.compressed_pointer + 2 < 4294967296) :
    (decompressStep ct st).uncompressed_text =
      store8 st.uncompressed_text st.coding_pos (ct (st.compressed_pointer + 2)) ∧
    (∀ j, j ≠ st.coding_pos →
      (decompressStep ct st).uncompressed_text j = st.uncompressed_text j) ∧
    (decompressStep ct st).uncompressed_text st.coding_pos = ct (st.compressed_pointer + 2) ∧
    (decompressStep ct st).coding_pos = st.coding_pos + 1 ∧
    tokenSpan ct st.compressed_pointer = 1 := by
  rw [decompressStep_literal ct st hz, Nat.mod_eq_of_lt hcp]
  refine ⟨rfl, ?_, store8_same _ _ _, Nat.mod_eq_of_lt hc, ?_⟩
  · intro j hj
    exact store8_other _ _ _ _ hj
  · unfold tokenSpan
    rw [hz]
    simp

/-- C18, witness: the token 05 00 58 (distance 0, length field 5, literal 'X')
read at cursor 0 stores 'X' at index 0 and moves the cursor to 1. -/
theorem zero_distance_literal_witness :
    readPointer (memOfList [1, 0, 0, 0, 5, 0, 88]) 4 &&& 15 = 5 ∧
    bytes (decompressStep (memOfList [1, 0, 0, 0, 5, 0, 88])
      { coding_pos := 0, compressed_pointer := 4,
        uncompressed_text := fun _ => 0 }).uncompressed_text 3 = [88, 0, 0] ∧
    (decompressStep (memOfList [1, 0, 0, 0, 5, 0, 88])
      { coding_pos := 0, compressed_pointer := 4,
        uncompressed_text := fun _ => 0 }).coding_pos = 1 :=
  have h := zero_distance_literal (memOfList [1, 0, 0, 0, 5, 0, 88])
    { coding_pos := 0, compressed_pointer := 4, uncompressed_text := fun _ => 0 }
    (by decide) (by decide) (by decide)
  ⟨by decide, by decide, h.2.2.2.1⟩

/-- C14. For a decoder state with cursor `c` and a token with
`1 ≤ distance ≤ c` and length `l` (also `l > distance`), after one step of
`lz77_decompress` the output has `output[c + i] = output[c - distance + (i mod
distance)]` for every `i < l`, the literal at `output[c + l]`, the cursor at
`c + l + 1`, and `output[0..c)` and the bytes after `output[c + l]` unchanged. -/
theorem overlapping_back_copy (ct : Mem) (st : DecState) (d l : Nat)
    (hd : readPointer ct st.compressed_pointer >>> 4 = d)
    (hl : readPointer ct st.compressed_pointer &&& 15 = l)
    (h1 : 1 ≤ d) (h2 : d ≤ st.coding_pos)
    (hc : st.coding_pos + l + 1 < 4294967296) (hcp : st.compressed_pointer + 2 < 4294967296) :
    (∀ i, i < l → (decompressStep ct st).uncompressed_text (st.coding_pos + i) =
      (decompressStep ct st).uncompressed_text (st.coding_pos - d + i % d)) ∧
    (decompressStep ct st).uncompressed_text (st.coding_pos + l) =
      ct (st.compressed_pointer + 2) ∧
    (decompressStep ct st).coding_pos = st.coding_pos + l + 1 ∧
    (∀ j, j < st.coding_pos →
      (decompressStep ct st).uncompressed_text j = st.uncompressed_text j) ∧
    (∀ j, st.coding_pos + l < j →
      (decompressStep ct st).uncompressed_text j = st.uncompressed_text j) := by
  have hne : readPointer ct st.compressed_pointer >>> 4 ≠ 0 := by omega
  have ho : (st.coding_pos + (4294967296 - d)) % 4294967296 = st.coding_pos - d := by omega
  rw [decompressStep_copy ct st hne, hd, hl, ho]
  simp only [Nat.mod_eq_of_lt hcp]
  have hcur := copyLoop_cursor l st.coding_pos (st.coding_pos - d) st.uncompressed_text
    (by omega)
  have hbel := copyLoop_below l st.coding_pos (st.coding_pos - d) st.uncompressed_text
    (by omega)
  have habo := copyLoop_above l st.coding_pos (st.coding_pos - d) st.uncompressed_text
    (by omega)
  have hback := copyLoop_back d h1 l st.coding_pos st.uncompressed_text h2 (by omega)
  rw [hcur]
  have hper : ∀ n i, i ≤ n → i < l →
      (copyLoop st.uncompressed_text l st.coding_pos (st.coding_pos - d)).1
        (st.coding_pos + i) =
      (copyLoop st.uncompressed_text l st.coding_pos (st.coding_pos - d)).1
        (st.coding_pos - d + i % d) := by
    intro n
    induction n with
    | zero =>
      intro i hi hil
      have : i = 0 := by omega
      subst this
      rw [hback 0 hil, Nat.zero_mod]
      simp
    | succ n ih =>
      intro i hi hil
      rw [hback i hil]
      by_cases hid : i < d
      · rw [Nat.mod_eq_of_lt hid, show st.coding_pos + i - d = st.coding_pos - d + i by omega]
      · have hge : d ≤ i := by omega
        rw [Nat.mod_eq_sub_mod hge, ← ih (i - d) (by omega) (by omega),
          show st.coding_pos + i - d = st.coding_pos + (i - d) by omega]
  refine ⟨?_, store8_same _ _ _, Nat.mod_eq_of_lt hc, ?_, ?_⟩
  · intro i hi
    rw [store8_other _ _ _ _ (by omega), store8_other _ _ _ _ (by
      have := Nat.mod_lt i (show 0 < d by omega)
      omega)]
    exact hper i i (le_refl _) hi
  · intro j hj
    rw [store8_other _ _ _ _ (by omega)]
    exact hbel j hj
  · intro j hj
    rw [store8_other _ _ _ _ (by omega)]
    exact habo j (by omega)

/-- C14, witness: for the ten bytes "AAAAAAAAAA" the encoder emits (0, 0, 'A')
and (1, 8, 'A'), the second with distance 1 smaller than its length 8; the
second decoder step, taken at cursor 1, moves the cursor to 10, and the decoder
rebuilds the ten bytes and returns 10. -/
theorem overlapping_back_copy_witness :
    (compressRun 10 (memOfList (List.replicate 10 65)) 10 (fun _ => 0)).emitted =
      [{ pos := 0, distance := 0, found := 0, length := 0, literal := 65 },
       { pos := 1, distance := 1, found := 9, length := 8, literal := 65 }] ∧
    (lz77_compress 10 (memOfList (List.replicate 10 65)) 10 (fun _ => 0)).map
      (fun r => (r.1, bytes r.2 r.1)) = some (10, [10, 0, 0, 0, 0, 0, 65, 24, 0, 65]) ∧
    (decompressStep (memOfList [10, 0, 0, 0, 0, 0, 65, 24, 0, 65])
      (decompressRun 1 (memOfList [10, 0, 0, 0, 0, 0, 65, 24, 0, 65])
        (fun _ => 0))).coding_pos = 10 ∧
    (lz77_decompress 10 (memOfList [10, 0, 0, 0, 0, 0, 65, 24, 0, 65]) (fun _ => 0)).map
      (fun r => (r.1, bytes r.2 r.1)) = some (10, List.replicate 10 65) :=
  have h := overlapping_back_copy (memOfList [10, 0, 0, 0, 0, 0, 65, 24, 0, 65])
    (decompressRun 1 (memOfList [10, 0, 0, 0, 0, 0, 65, 24, 0, 65]) (fun _ => 0)) 1 8
    (by decide) (by decide) (by decide) (by decide) (by decide) (by decide)
  ⟨by decide, by decide, h.2.2.1.trans (by decide), by decide⟩

/-! ## Streams the encoder does not produce -/

/-- C11 as stated fails. The stream 02 00 00 00 | 11 00 58 has header 2 and one
token (distance 1, length 1, literal 'X') read at cursor 0, so its distance
exceeds the cursor.  `lz77_decompress` returns 2, the declared length, which
`file_lz77_decompress` accepts, and the first output byte is the byte found at
offset `2^32 - 1` of the output pointer: 7 when that byte is 7, 0 when it is 0. -/
theorem malformed_backreference_accepted :
    readPointer (memOfList [2, 0, 0, 0, 17, 0, 88]) 4 >>> 4 = 1 ∧
    (lz77_decompress 1 (memOfList [2, 0, 0, 0, 17, 0, 88])
      (fun i => if i = 4294967295 then 7 else 0)).map (fun r => (r.1, bytes r.2 r.1)) =
      some (2, [7, 88]) ∧
    (lz77_decompress 1 (memOfList [2, 0, 0, 0, 17, 0, 88]) (fun _ => 0)).map
      (fun r => (r.1, bytes r.2 r.1)) = some (2, [0, 88]) ∧
    file_lz77_decompress_accepts 1 (memOfList [2, 0, 0, 0, 17, 0, 88])
      (fun i => if i = 4294967295 then 7 else 0) = some true := by
  decide

/-- C11, amended. `lz77_decompress` does not compare the distance of a token
with its cursor.  For a token with distance `d` greater than the cursor `c` and
length `l ≥ 1`, one step reads the output pointer at offset `c + 2^32 - d` (the
32-bit value of `c - d`, at least `2^32 - 4095`), stores that byte at
`output[c]`, and moves the cursor to `c + l + 1` as for any other token. -/
theorem backreference_before_start (ct : Mem) (st : DecState) (d l : Nat)
    (hd : readPointer ct st.compressed_pointer >>> 4 = d)
    (hl : readPointer ct st.compressed_pointer &&& 15 = l)
    (hgt : st.coding_pos < d) (hl1 : 1 ≤ l) (hc : st.coding_pos + l + 1 < 4294967296) :
    (decompressStep ct st).coding_pos = st.coding_pos + l + 1 ∧
    (decompressStep ct st).uncompressed_text st.coding_pos =
      st.uncompressed_text (st.coding_pos + 4294967296 - d) ∧
    4294967296 - 4095 ≤ st.coding_pos + 4294967296 - d ∧
    tokenSpan ct st.compressed_pointer = l + 1 := by
  have hne : readPointer ct st.compressed_pointer >>> 4 ≠ 0 := by omega
  have hd4 := readPointer_distance_le ct st.compressed_pointer
  rw [hd] at hd4
  have ho : (st.coding_pos + (4294967296 - d)) % 4294967296 =
      st.coding_pos + 4294967296 - d := by omega
  rw [decompressStep_copy ct st hne, hd, hl, ho]
  have hcur := copyLoop_cursor l st.coding_pos (st.coding_pos + 4294967296 - d)
    st.uncompressed_text (by omega)
  rw [hcur]
  refine ⟨Nat.mod_eq_of_lt hc, ?_, by omega, ?_⟩
  · show store8 _ _ _ _ = _
    rw [store8_other _ _ _ _ (by omega)]
    obtain ⟨k, rfl⟩ : ∃ k, l = k + 1 := ⟨l - 1, by omega⟩
    unfold copyLoop
    rw [Nat.mod_eq_of_lt (show st.coding_pos + 1 < 4294967296 by omega),
      copyLoop_below k (st.coding_pos + 1) _ _ (by omega) st.coding_pos (by omega),
      store8_same]
  · unfold tokenSpan
    rw [hd, hl, if_pos (by omega)]

/-- C11, witness of the amended statement: the token (1, 1, 'X') read at
cursor 0. -/
theorem backreference_before_start_witness :
    (decompressStep (memOfList [2, 0, 0, 0, 17, 0, 88])
      { coding_pos := 0, compressed_pointer := 4,
        uncompressed_text := fun i => if i = 4294967295 then 7 else 0 }).coding_pos = 2 ∧
    (decompressStep (memOfList [2, 0, 0, 0, 17, 0, 88])
      { coding_pos := 0, compressed_pointer := 4,
        uncompressed_text := fun i => if i = 4294967295 then 7 else 0 }).uncompressed_text 0
      = 7 :=
  have h := backreference_before_start (memOfList [2, 0, 0, 0, 17, 0, 88])
    { coding_pos := 0, compressed_pointer := 4,
      uncompressed_text := fun i => if i = 4294967295 then 7 else 0 } 1 1
    (by decide) (by decide) (by decide) (by decide) (by decide)
  ⟨h.1, h.2.1.trans (by decide)⟩

theorem copyLoop_cursor_lt :
    ∀ (l c o : Nat) (m : Mem), c < 4294967296 → (copyLoop m l c o).2 < 4294967296 := by
  intro l
  induction l with
  | zero => intro c o m h; exact h
  | succ l ih =>
    intro c o m _
    unfold copyLoop
    exact ih _ _ _ (Nat.mod_lt _ (by omega))

theorem decompressStep_coding_pos_lt (ct : Mem) (st : DecState) :
    (decompressStep ct st).coding_pos < 4294967296 := by
  unfold decompressStep
  exact Nat.mod_lt _ (by omega)

/-- The last store of a step is the literal, at the index just below the new
cursor. -/
theorem decompressStep_last_store (ct : Mem) (st : DecState)
    (hc : st.coding_pos < 4294967296) (h1 : 1 ≤ (decompressStep ct st).coding_pos) :
    (decompressStep ct st).uncompressed_text ((decompressStep ct st).coding_pos - 1) =
      ct ((st.compressed_pointer + 2) % 4294967296) := by
  by_cases hz : readPointer ct st.compressed_pointer >>> 4 = 0
  · rw [decompressStep_literal ct st hz] at h1 ⊢
    simp only [] at h1 ⊢
    have : (st.coding_pos + 1) % 4294967296 - 1 = st.coding_pos := by omega
    rw [this, store8_same]
  · rw [decompressStep_copy ct st hz] at h1 ⊢
    simp only [] at h1 ⊢
    have hlt := copyLoop_cursor_lt (readPointer ct st.compressed_pointer &&& 15) st.coding_pos
      ((st.coding_pos + (4294967296 - readPointer ct st.compressed_pointer >>> 4)) %
        4294967296) st.uncompressed_text hc
    have : ((copyLoop st.uncompressed_text (readPointer ct st.compressed_pointer &&& 15)
        st.coding_pos ((st.coding_pos +
          (4294967296 - readPointer ct st.compressed_pointer >>> 4)) % 4294967296)).2 + 1) %
        4294967296 - 1 =
        (copyLoop st.uncompressed_text (readPointer ct st.compressed_pointer &&& 15)
        st.coding_pos ((st.coding_pos +
          (4294967296 - readPointer ct st.compressed_pointer >>> 4)) % 4294967296)).2 := by
      omega
    rw [this, store8_same]

/-- The state in which the outer loop of the decoder stops is the initial state
or the result of a step taken below the declared length. -/
theorem decompressLoop_last (ct : Mem) (N : Nat) :
    ∀ (fuel : Nat) (st : DecState), st.coding_pos < 4294967296 →
      decompressLoop ct N fuel st = st ∨
      ∃ s, s.coding_pos < N ∧ s.coding_pos < 4294967296 ∧
        decompressLoop ct N fuel st = decompressStep ct s := by
  intro fuel
  induction fuel with
  | zero => intro st _; exact Or.inl rfl
  | succ fuel ih =>
    intro st hst
    rw [decompressLoop_succ]
    by_cases hc : st.coding_pos < N
    · rw [if_pos hc]
      rcases ih (decompressStep ct st) (decompressStep_coding_pos_lt ct st) with h | h
      · exact Or.inr ⟨st, hc, hst, h⟩
      · exact Or.inr h
    · rw [if_neg hc]
      exact Or.inl rfl

/-- C12 as stated fails. In the stream 02 00 00 00 | 00 00 41 | 12 00 42 the
second token (distance 1, length 2, literal 'B') is read at cursor 1 and carries
the cursor past the declared length 2.  `lz77_decompress` returns 4 and has
stored 'A' at index 2 and 'B' at index 3 of the output, which held 255 before. -/
theorem overrun_written :
    load32 (memOfList [2, 0, 0, 0, 0, 0, 65, 18, 0, 66]) 0 = 2 ∧
    (lz77_decompress 2 (memOfList [2, 0, 0, 0, 0, 0, 65, 18, 0, 66]) (fun _ => 255)).map
      (fun r => (r.1, bytes r.2 6)) = some (4, [65, 65, 65, 66, 255, 255]) ∧
    file_lz77_decompress_accepts 2 (memOfList [2, 0, 0, 0, 0, 0, 65, 18, 0, 66])
      (fun _ => 255) = some false := by
  decide

/-- C12, amended. When the tokens of a stream carry the cursor past the
declared length `N`, `lz77_decompress` does not fail: it returns its final
cursor, a value greater than `N`; the last step, started at a cursor below `N`,
has stored the literal of its token at the index `cursor - 1 ≥ N` of the
output; `file_lz77_decompress` then rejects the result, because the returned
value differs from `N`. -/
theorem overrun_returned (fuel : Nat) (ct out : Mem)
    (h : load32 ct 0 < (decompressRun fuel ct out).coding_pos) :
    lz77_decompress fuel ct out =
      some ((decompressRun fuel ct out).coding_pos,
        (decompressRun fuel ct out).uncompressed_text) ∧
    (decompressRun fuel ct out).coding_pos ≠ load32 ct 0 ∧
    load32 ct 0 ≤ (decompressRun fuel ct out).coding_pos - 1 ∧
    (∃ s : DecState, s.coding_pos < load32 ct 0 ∧
      decompressRun fuel ct out = decompressStep ct s ∧
      (decompressRun fuel ct out).uncompressed_text
        ((decompressRun fuel ct out).coding_pos - 1) =
        ct ((s.compressed_pointer + 2) % 4294967296)) ∧
    file_lz77_decompress_accepts fuel ct out = some false := by
  have hret : lz77_decompress fuel ct out =
      some ((decompressRun fuel ct out).coding_pos,
        (decompressRun fuel ct out).uncompressed_text) := by
    unfold lz77_decompress
    simp only []
    rw [if_neg (by omega)]
  refine ⟨hret, by omega, by omega, ?_, ?_⟩
  · have hl := decompressLoop_last ct (load32 ct 0) fuel
      { coding_pos := 0, compressed_pointer := 4, uncompressed_text := out }
      (show (0 : Nat) < 4294967296 by omega)
    rcases hl with hl | ⟨s, hs1, hs2, hl⟩
    · exfalso
      have : (decompressRun fuel ct out).coding_pos = 0 := by
        unfold decompressRun
        rw [hl]
      omega
    · have e : decompressRun fuel ct out = decompressStep ct s := hl
      refine ⟨s, hs1, e, ?_⟩
      rw [e] at h ⊢
      exact decompressStep_last_store ct s hs2 (by omega)
  · unfold file_lz77_decompress_accepts
    rw [hret]
    simp only [Option.map_some', Option.some.injEq, decide_eq_false_iff_not]
    omega

/-- C12, witness of the amended statement: the stream
02 00 00 00 | 00 00 41 | 12 00 42 is decoded to a returned value of 4 and is not
accepted. -/
theorem overrun_returned_witness :
    (lz77_decompress 2 (memOfList [2, 0, 0, 0, 0, 0, 65, 18, 0, 66]) (fun _ => 255)).map
      (fun r => r.1) = some 4 ∧
    file_lz77_decompress_accepts 2 (memOfList [2, 0, 0, 0, 0, 0, 65, 18, 0, 66])
      (fun _ => 255) = some false :=
  have h := overrun_returned 2 (memOfList [2, 0, 0, 0, 0, 0, 65, 18, 0, 66]) (fun _ => 255)
    (by decide)
  ⟨(congrArg (Option.map (fun r => r.1)) h.1).trans (by decide), h.2.2.2.2⟩

/-! ## The value returned by the decoder -/

theorem tokenSpan_pos (ct : Mem) (cp : Nat) : 1 ≤ tokenSpan ct cp := by
  unfold tokenSpan
  split <;> omega

theorem decompressStep_coding_pos_span (ct : Mem) (st : DecState)
    (h : st.coding_pos + tokenSpan ct st.compressed_pointer < 4294967296) :
    (decompressStep ct st).coding_pos = st.coding_pos + tokenSpan ct st.compressed_pointer := by
  by_cases hz : readPointer ct st.compressed_pointer >>> 4 = 0
  · have hs : tokenSpan ct st.compressed_pointer = 1 := by
      unfold tokenSpan; rw [hz]; simp
    rw [hs] at h ⊢
    rw [decompressStep_literal ct st hz]
    exact Nat.mod_eq_of_lt h
  · have hs : tokenSpan ct st.compressed_pointer =
        (readPointer ct st.compressed_pointer &&& 15) + 1 := by
      unfold tokenSpan; rw [if_pos hz]
    rw [hs] at h ⊢
    rw [decompressStep_copy ct st hz]
    simp only []
    rw [copyLoop_cursor _ _ _ _ (by omega)]
    omega

theorem decompressSpans_succ (ct : Mem) (N fuel : Nat) (st : DecState) :
    decompressSpans ct N (fuel + 1) st =
      if st.coding_pos < N then
        tokenSpan ct st.compressed_pointer :: decompressSpans ct N fuel (decompressStep ct st)
      else [] := rfl

/-- While no addition wraps, the cursor is the sum of the bytes produced by the
tokens processed so far, and it is below `N` before every processed token. -/
theorem decompressLoop_spans (ct : Mem) (N : Nat) :
    ∀ (fuel : Nat) (st : DecState),
      st.coding_pos + (decompressSpans ct N fuel st).sum < 4294967296 →
      (decompressLoop ct N fuel st).coding_pos =
        st.coding_pos + (decompressSpans ct N fuel st).sum ∧
      (∀ k, k < (decompressSpans ct N fuel st).length →
        st.coding_pos + ((decompressSpans ct N fuel st).take k).sum < N) ∧
      (N ≤ fuel + st.coding_pos → N ≤ st.coding_pos + (decompressSpans ct N fuel st).sum) := by
  intro fuel
  induction fuel with
  | zero =>
    intro st _
    refine ⟨rfl, ?_, ?_⟩
    · intro k hk; simp [decompressSpans] at hk
    · intro h; simp only [decompressSpans, List.sum_nil]; omega
  | succ fuel ih =>
    intro st h
    rw [decompressLoop_succ, decompressSpans_succ] at *
    by_cases hc : st.coding_pos < N
    · rw [if_pos hc] at h ⊢
      rw [if_pos hc]
      simp only [List.sum_cons] at h ⊢
      have hstep := decompressStep_coding_pos_span ct st (by omega)
      obtain ⟨a, b, c⟩ := ih (decompressStep ct st) (by rw [hstep]; omega)
      rw [hstep] at a b c
      have hpos := tokenSpan_pos ct st.compressed_pointer
      refine ⟨by rw [a]; omega, ?_, ?_⟩
      · intro k hk
        cases k with
        | zero => simpa using hc
        | succ j =>
          simp only [List.take_succ_cons, List.sum_cons]
          have := b j (by simpa using hk)
          omega
      · intro hf
        have := c (by omega)
        omega
    · rw [if_neg hc] at h ⊢
      rw [if_neg hc]
      refine ⟨rfl, ?_, ?_⟩
      · intro k hk; simp at hk
      · intro _; simp only [List.sum_nil]; omega

/-- C19. For a stream with header `N` whose processed tokens keep the cursor
below `2^32`, `lz77_decompress` returns within `N` iterations; the returned
value is the sum of the bytes produced by the processed tokens (`length + 1` for
a token with distance > 0, 1 for a token with distance 0); the cursor is below
`N` before every processed token and the returned value is at least `N`; for
`N = 0` no token is processed and 0 is returned; and `file_lz77_decompress`
accepts the output exactly when that sum equals `N`. -/
theorem decoder_return_value (fuel : Nat) (ct out : Mem) (hfuel : load32 ct 0 ≤ fuel)
    (hsum : (decompressRunSpans fuel ct out).sum < 4294967296) :
    lz77_decompress fuel ct out =
      some ((decompressRunSpans fuel ct out).sum,
        (decompressRun fuel ct out).uncompressed_text) ∧
    load32 ct 0 ≤ (decompressRunSpans fuel ct out).sum ∧
    (∀ k, k < (decompressRunSpans fuel ct out).length →
      ((decompressRunSpans fuel ct out).take k).sum < load32 ct 0) ∧
    (load32 ct 0 = 0 → decompressRunSpans fuel ct out = []) ∧
    file_lz77_decompress_accepts fuel ct out =
      some (decide ((decompressRunSpans fuel ct out).sum = load32 ct 0)) := by
  obtain ⟨a, b, c⟩ := decompressLoop_spans ct (load32 ct 0) fuel
    { coding_pos := 0, compressed_pointer := 4, uncompressed_text := out }
    (by simpa [decompressRunSpans] using hsum)
  simp only [Nat.zero_add] at a b c
  have hcp : (decompressRun fuel ct out).coding_pos = (decompressRunSpans fuel ct out).sum := a
  have hge : load32 ct 0 ≤ (decompressRunSpans fuel ct out).sum := c (by omega)
  have hret : lz77_decompress fuel ct out =
      some ((decompressRunSpans fuel ct out).sum,
        (decompressRun fuel ct out).uncompressed_text) := by
    unfold lz77_decompress
    simp only []
    rw [hcp, if_neg (by omega)]
  refine ⟨hret, hge, b, ?_, ?_⟩
  · intro hz
    cases fuel with
    | zero => rfl
    | succ fuel =>
      unfold decompressRunSpans
      rw [decompressSpans_succ, hz]
      simp
  · unfold file_lz77_decompress_accepts
    rw [hret]
    rfl

/-- C19, witness: the stream 02 00 00 00 | 00 00 41 | 12 00 42 produces 1 and
then 3 bytes: the decoder returns 4, which is not the declared 2, and the output
is not accepted; the stream 00 00 00 00 makes it return 0 with no token read. -/
theorem decoder_return_value_witness :
    decompressRunSpans 2 (memOfList [2, 0, 0, 0, 0, 0, 65, 18, 0, 66]) (fun _ => 0) = [1, 3] ∧
    (lz77_decompress 2 (memOfList [2, 0, 0, 0, 0, 0, 65, 18, 0, 66]) (fun _ => 0)).map
      (fun r => r.1) = some 4 ∧
    file_lz77_decompress_accepts 2 (memOfList [2, 0, 0, 0, 0, 0, 65, 18, 0, 66])
      (fun _ => 0) = some false ∧
    (lz77_decompress 0 (memOfList [0, 0, 0, 0]) (fun _ => 0)).map (fun r => r.1) = some 0 ∧
    decompressRunSpans 0 (memOfList [0, 0, 0, 0]) (fun _ => 0) = [] :=
  have h := decoder_return_value 2 (memOfList [2, 0, 0, 0, 0, 0, 65, 18, 0, 66]) (fun _ => 0)
    (by decide) (by decide)
  have h0 := decoder_return_value 0 (memOfList [0, 0, 0, 0]) (fun _ => 0)
    (by decide) (by decide)
  ⟨by decide, (congrArg (Option.map (fun r => r.1)) h.1).trans (by decide),
    h.2.2.2.2.trans (by decide),
    (congrArg (Option.map (fun r => r.1)) h0.1).trans (by decide), h0.2.2.2.1 (by decide)⟩

/-! ## The bytes written by the encoder -/

theorem writeToken_above (m : Mem) (a w c i : Nat) (ha : a + 2 < 4294967296)
    (h : a + 3 < i) : writeToken m a w c i = m i :=
  writeToken_other m a w c i ha (Or.inr h)

/-- After at least one step the byte at the output pointer is the zero left by
the four-byte store of the last packed word, and the bytes after it are those
the buffer held before the call. -/
theorem compressLoop_above (text : Mem) (N : Nat) (out : Mem) :
    ∀ (fuel : Nat) (st : CompState),
      st.compressed_pointer = 4 + 3 * st.emitted.length →
      4 + 3 * (compressLoop text N fuel st).emitted.length < 4294967296 →
      (∀ i, st.compressed_pointer < i → st.compressed_text i = out i) →
      (st.emitted ≠ [] → st.compressed_text st.compressed_pointer = 0) →
      (compressLoop text N fuel st).compressed_pointer =
        4 + 3 * (compressLoop text N fuel st).emitted.length ∧
      (∀ i, (compressLoop text N fuel st).compressed_pointer < i →
        (compressLoop text N fuel st).compressed_text i = out i) ∧
      ((compressLoop text N fuel st).emitted ≠ [] →
        (compressLoop text N fuel st).compressed_text
          (compressLoop text N fuel st).compressed_pointer = 0) := by
  intro fuel
  induction fuel with
  | zero => intro st hcp _ ha hz; exact ⟨hcp, ha, hz⟩
  | succ fuel ih =>
    intro st hcp hk ha hz
    rw [compressLoop_succ] at hk ⊢
    by_cases hc : st.coding_pos < N
    · rw [if_pos hc] at hk ⊢
      have hmono := compressLoop_length_mono text N fuel (compressStep text N st)
      have hlen : (compressStep text N st).emitted.length = st.emitted.length + 1 := by
        rw [compressStep_emitted, List.length_append]; rfl
      have hp3 := compressStep_pointer text N st (by omega)
      have hct : (compressStep text N st).compressed_text =
          writeToken st.compressed_text st.compressed_pointer
            (packPointer (emitAt text N st.coding_pos).distance
              (emitAt text N st.coding_pos).length)
            (emitAt text N st.coding_pos).literal := rfl
      have hd := (emitAt_distance_le text N st.coding_pos).1
      have hl : (emitAt text N st.coding_pos).length ≤ 15 :=
        le_trans (emitAt_length_le text N st.coding_pos) (emitAt_found_le text N st.coding_pos)
      have hpk := packPointer_eq _ _ hd hl
      apply ih (compressStep text N st) (by rw [hp3, hlen, hcp]; omega) hk
      · intro i hi
        rw [hct, writeToken_above _ _ _ _ i (by omega) (by omega)]
        exact ha i (by omega)
      · intro _
        rw [hp3, hct, writeToken_at3 _ _ _ _ (by omega), hpk]
        omega
    · rw [if_neg hc] at hk ⊢
      exact ⟨hcp, ha, hz⟩

theorem compressRun_nonempty (fuel : Nat) (text : Mem) (N : Nat) (out : Mem)
    (hN : 1 ≤ N) (hfuel : 1 ≤ fuel) : (compressRun fuel text N out).emitted ≠ [] := by
  obtain ⟨f, rfl⟩ : ∃ f, fuel = f + 1 := ⟨fuel - 1, by omega⟩
  unfold compressRun
  rw [compressLoop_succ, if_pos (by simp [compressInit]; omega)]
  have := compressLoop_length_mono text N f (compressStep text N (compressInit N out))
  rw [compressStep_emitted, List.length_append] at this
  intro h
  rw [h] at this
  simp at this

theorem compressRun_result (fuel : Nat) (text : Mem) (N : Nat) (out : Mem)
    (hN : N + 15 < 4294967296) (hfuel : N ≤ fuel) :
    lz77_compress fuel text N out =
      some ((compressRun fuel text N out).output_size,
        (compressRun fuel text N out).compressed_text) := by
  have hfin : ¬ (compressRun fuel text N out).coding_pos < N :=
    compressLoop_finishes text N hN fuel (compressInit N out) (by simp [compressInit]; omega)
  unfold lz77_compress
  simp only []
  rw [if_neg hfin]

theorem compressRun_size (fuel : Nat) (text : Mem) (N : Nat) (out : Mem)
    (hsize : 4 + 3 * (compressRun fuel text N out).emitted.length < 4294967296) :
    (compressRun fuel text N out).output_size =
      4 + 3 * (compressRun fuel text N out).emitted.length :=
  (compressLoop_layout text N fuel (compressInit N out) rfl rfl
    (by
      have := compressInit_bytes N out
      simpa [compressInit, streamBytes] using this)
    hsize).1

/-- C17. For a non-empty input the byte of the output buffer at the index equal
to the returned size is set to 0 (the high part of the four-byte store of the
last packed word), the bytes below that index are the header and the tokens, and
the bytes above it keep the values the buffer held before the call: the call
writes the indices `0..size` inclusive.  For the empty input the returned size
is 4 and every byte from index 4 on keeps its value. -/
theorem write_past_size (fuel : Nat) (text : Mem) (N : Nat) (out : Mem)
    (hN : N + 15 < 4294967296) (hfuel : N ≤ fuel)
    (hsize : 4 + 3 * (compressRun fuel text N out).emitted.length < 4294967296) :
    lz77_compress fuel text N out =
      some ((compressRun fuel text N out).output_size,
        (compressRun fuel text N out).compressed_text) ∧
    (1 ≤ N → (compressRun fuel text N out).compressed_text
      (compressRun fuel text N out).output_size = 0) ∧
    bytes (compressRun fuel text N out).compressed_text
        (compressRun fuel text N out).output_size =
      headerBytes N ++ streamBytes (compressRun fuel text N out).emitted ∧
    (∀ i, (compressRun fuel text N out).output_size < i →
      (compressRun fuel text N out).compressed_text i = out i) ∧
    (N = 0 → (compressRun fuel text N out).output_size = 4 ∧
      ∀ i, 4 ≤ i → (compressRun fuel text N out).compressed_text i = out i) := by
  have hsz := compressRun_size fuel text N out hsize
  obtain ⟨a, b, c⟩ := compressLoop_above text N out fuel (compressInit N out) rfl hsize
    (by
      intro i hi
      have h4 : 4 < i := hi
      simp only [compressInit]
      exact store32_other out 0 N i (Or.inr (by omega)))
    (by intro h; exact absurd rfl h)
  have hcp : (compressRun fuel text N out).compressed_pointer =
      4 + 3 * (compressRun fuel text N out).emitted.length := a
  have hby := (compressLoop_layout text N fuel (compressInit N out) rfl rfl
    (by
      have := compressInit_bytes N out
      simpa [compressInit, streamBytes] using this)
    hsize).2
  refine ⟨compressRun_result fuel text N out hN hfuel, ?_, ?_, ?_, ?_⟩
  · intro h1
    have hne := compressRun_nonempty fuel text N out h1 (by omega)
    have hc0 : (compressRun fuel text N out).compressed_text
        (compressRun fuel text N out).compressed_pointer = 0 := c hne
    rw [hsz, ← hcp]
    exact hc0
  · rw [hsz]
    exact hby
  · intro i hi
    exact b i (by
      show (compressRun fuel text N out).compressed_pointer < i
      omega)
  · intro h0
    subst h0
    have hrun : compressRun fuel text 0 out = compressInit 0 out := by
      unfold compressRun
      exact compressLoop_done text 0 fuel _ (by simp)
    rw [hrun]
    refine ⟨rfl, ?_⟩
    intro i hi
    simp only [compressInit]
    exact store32_other out 0 0 i (Or.inr (by omega))

/-- C17, witness: for the input "AB" and an output buffer filled with 255, the
returned size is 10, the byte at index 10 is 0 and the byte at index 11 is still
255; for the empty input the size is 4 and the byte at index 4 is still 255. -/
theorem write_past_size_witness :
    (lz77_compress 2 (memOfList [65, 66]) 2 (fun _ => 255)).map
      (fun r => (r.1, bytes r.2 12)) =
      some (10, [2, 0, 0, 0, 0, 0, 65, 0, 0, 66, 0, 255]) ∧
    (lz77_compress 0 (memOfList []) 0 (fun _ => 255)).map (fun r => (r.1, bytes r.2 6)) =
      some (4, [0, 0, 0, 0, 255, 255]) :=
  have h := write_past_size 2 (memOfList [65, 66]) 2 (fun _ => 255) (by decide) (by decide)
    (by decide)
  have h0 := write_past_size 0 (memOfList []) 0 (fun _ => 255) (by decide) (by decide)
    (by decide)
  ⟨(congrArg (Option.map (fun r => (r.1, bytes r.2 12))) h.1).trans (by decide),
    (congrArg (Option.map (fun r => (r.1, bytes r.2 6))) h0.1).trans (by decide)⟩

/-! ## Tie-break of the match finder -/

/-- C15 at a failing input. The memories 'A' 'A' 'A' 'B' and 'A' 'A' 0 0 hold the
same two-byte input "AA" (`uncompressed_size = 2`).  At position 1 the first
gives the found length 2, with `1 + 2 > 2`, and the token literal `text[3]`; the
second gives the found length 1.  The tokens differ although the inputs are
equal: the bytes at the indices 2 and 3 have been read. -/
theorem input_read_past_end :
    bytes (memOfList [65, 65, 65, 66]) 2 = bytes (memOfList [65, 65]) 2 ∧
    findMatch (memOfList [65, 65, 65, 66]) 1 = (1, 2) ∧
    findMatch (memOfList [65, 65]) 1 = (1, 1) ∧
    (compressRun 2 (memOfList [65, 65, 65, 66]) 2 (fun _ => 0)).emitted =
      [{ pos := 0, distance := 0, found := 0, length := 0, literal := 65 },
       { pos := 1, distance := 1, found := 2, length := 2,
         literal := memOfList [65, 65, 65, 66] 3 }] ∧
    (compressRun 2 (memOfList [65, 65]) 2 (fun _ => 0)).emitted =
      [{ pos := 0, distance := 0, found := 0, length := 0, literal := 65 },
       { pos := 1, distance := 1, found := 1, length := 0, literal := 65 }] := by
  decide

/-! ## Size of the output -/

/-- Every outer step advances the coding position by at most 16. -/
theorem compressLoop_coding_pos_le (text : Mem) (N : Nat) :
    ∀ (fuel : Nat) (st : CompState), st.coding_pos ≤ 16 * st.emitted.length →
      (compressLoop text N fuel st).coding_pos ≤
        16 * (compressLoop text N fuel st).emitted.length := by
  intro fuel
  induction fuel with
  | zero => intro st h; exact h
  | succ fuel ih =>
    intro st h
    rw [compressLoop_succ]
    by_cases hc : st.coding_pos < N
    · rw [if_pos hc]
      apply ih
      have hle := (findMatch_spec text st.coding_pos).2.2.2.2
      rw [compressStep_coding_pos, compressStep_emitted, List.length_append]
      simp only [List.length_cons, List.length_nil]
      omega
    · rw [if_neg hc]
      exact h

theorem sum_length_succ (l : List Emitted) :
    (l.map (fun e => e.length + 1)).sum = (l.map (fun e => e.length)).sum + l.length := by
  induction l with
  | nil => rfl
  | cons a l ih =>
    simp only [List.map_cons, List.sum_cons, List.length_cons, ih]
    omega

theorem sum_length_zero (l : List Emitted) :
    (l.map (fun e => e.length)).sum = 0 ↔ ∀ e ∈ l, e.length = 0 := by
  induction l with
  | nil => simp
  | cons a l ih =>
    simp only [List.map_cons, List.sum_cons, List.mem_cons, forall_eq_or_imp]
    rw [← ih]
    omega

theorem emitAt_length_zero_inside (text : Mem) (N p : Nat) (hp : p < N)
    (hN : N + 15 < 4294967296) (h : (emitAt text N p).length = 0) :
    p + (findMatch text p).2 ≤ N := by
  have hle := (findMatch_spec text p).2.2.2.2
  rw [emitAt_length] at h
  split at h
  · rename_i hb
    have := hb.2
    omega
  · omega

/-- Where no earlier byte within reach equals the byte at `p`, the step at `p`
emits the pure literal. -/
theorem emitAt_no_match (text : Mem) (N p : Nat) (hp : p < N) (hN : N + 15 < 4294967296)
    (hd : ∀ c, 1 ≤ c → c ≤ p → text (p - c) ≠ text p) :
    (findMatch text p).2 = 0 ∧
    emitAt text N p = { pos := p, distance := 0, found := 0, length := 0, literal := text p } := by
  obtain ⟨h0, h1, _, _, _⟩ := findMatch_spec text p
  have hz : (findMatch text p).2 = 0 := by
    by_contra hn
    obtain ⟨a, _, b, _⟩ := h1 (by omega)
    have := findMatch_agree text p (by omega) 0 (by omega)
    simp only [Nat.add_zero] at this
    exact hd _ a b this
  refine ⟨hz, ?_⟩
  unfold emitAt
  simp only [hz, h0 hz, ne_eq, not_true_eq_false, false_and, if_false, Nat.add_zero]
  rw [Nat.mod_eq_of_lt (by omega)]

theorem compressLoop_distinct (text : Mem) (N : Nat) (hN : N + 15 < 4294967296)
    (hd : ∀ i j, i < j → j < N → text i ≠ text j) :
    ∀ (fuel : Nat) (st : CompState), st.coding_pos ≤ N → N ≤ fuel + st.coding_pos →
      (compressLoop text N fuel st).emitted = st.emitted ++
        (List.range' st.coding_pos (N - st.coding_pos)).map
          (fun i => { pos := i, distance := 0, found := 0, length := 0, literal := text i }) := by
  intro fuel
  induction fuel with
  | zero =>
    intro st h1 h2
    have : N - st.coding_pos = 0 := by omega
    simp [compressLoop, this]
  | succ fuel ih =>
    intro st h1 h2
    rw [compressLoop_succ]
    by_cases hc : st.coding_pos < N
    · rw [if_pos hc]
      obtain ⟨hz, he⟩ := emitAt_no_match text N st.coding_pos hc hN
        (fun c hc1 hc2 => hd _ _ (by omega) hc)
      have hcp := compressStep_coding_pos text N st
      rw [hz] at hcp
      have hcp2 : (compressStep text N st).coding_pos = st.coding_pos + 1 := by
        rw [hcp]; omega
      rw [ih (compressStep text N st) (by omega) (by omega), compressStep_emitted, he, hcp2,
        show N - st.coding_pos = (N - (st.coding_pos + 1)) + 1 by omega, List.range'_succ]
      simp
    · rw [if_neg hc]
      have : N - st.coding_pos = 0 := by omega
      simp [this]

/-- C16 as stated fails. For the input "AA" followed by a zero byte the returned
size is `4 + 3 * 2`, the upper bound, although the second token is built from
the found match (distance 1, length 1) and carries the distance 1.  For the same
input followed by 'A' 'B' the size is again `4 + 3 * 2` and the second token is
(1, 2, 'B'). -/
theorem upper_bound_with_match :
    (lz77_compress 2 (memOfList [65, 65]) 2 (fun _ => 0)).map (fun r => r.1) =
      some (4 + 3 * 2) ∧
    (compressRun 2 (memOfList [65, 65]) 2 (fun _ => 0)).emitted =
      [{ pos := 0, distance := 0, found := 0, length := 0, literal := 65 },
       { pos := 1, distance := 1, found := 1, length := 0, literal := 65 }] ∧
    (lz77_compress 2 (memOfList [65, 65, 65, 66]) 2 (fun _ => 0)).map (fun r => r.1) =
      some (4 + 3 * 2) ∧
    (compressRun 2 (memOfList [65, 65, 65, 66]) 2 (fun _ => 0)).emitted =
      [{ pos := 0, distance := 0, found := 0, length := 0, literal := 65 },
       { pos := 1, distance := 1, found := 2, length := 2, literal := 66 }] := by
  decide

/-- C16, amended. For an input of length `N` with `4 + 3 * N < 2^32` the call
returns the size `4 + 3 * k` with `4 + 3 * ceil(N / 16) ≤ 4 + 3 * k ≤ 4 + 3 * N`.
The upper bound is attained when every token has length field 0 and, in a run
where no found match reaches past the end of the input, only then.  It is
attained for every input whose bytes are pairwise distinct, where the tokens are
`(0, 0, text[i])` for `i = 0..N-1`. -/
theorem size_bounds (fuel : Nat) (text : Mem) (N : Nat) (out : Mem)
    (hN : 4 + 3 * N < 4294967296) (hfuel : N ≤ fuel) :
    lz77_compress fuel text N out =
      some (4 + 3 * (compressRun fuel text N out).emitted.length,
        (compressRun fuel text N out).compressed_text) ∧
    4 + 3 * ((N + 15) / 16) ≤ 4 + 3 * (compressRun fuel text N out).emitted.length ∧
    4 + 3 * (compressRun fuel text N out).emitted.length ≤ 4 + 3 * N ∧
    ((∀ e ∈ (compressRun fuel text N out).emitted, e.length = 0) →
      4 + 3 * (compressRun fuel text N out).emitted.length = 4 + 3 * N) ∧
    ((∀ e ∈ (compressRun fuel text N out).emitted, e.pos + e.found ≤ N) →
      4 + 3 * (compressRun fuel text N out).emitted.length = 4 + 3 * N →
      ∀ e ∈ (compressRun fuel text N out).emitted, e.length = 0) ∧
    ((∀ i j, i < j → j < N → text i ≠ text j) →
      (compressRun fuel text N out).emitted = (List.range N).map
        (fun i => { pos := i, distance := 0, found := 0, length := 0, literal := text i }) ∧
      4 + 3 * (compressRun fuel text N out).emitted.length = 4 + 3 * N) := by
  have hN15 : N + 15 < 4294967296 := by omega
  have hk := compressRun_steps_le fuel text N out hN15
  have hsz := compressRun_size fuel text N out (by omega)
  have hres := compressRun_result fuel text N out hN15 hfuel
  rw [hsz] at hres
  have hfin : ¬ (compressRun fuel text N out).coding_pos < N :=
    compressLoop_finishes text N hN15 fuel (compressInit N out)
      (by simp [compressInit]; omega)
  have hpos : (compressRun fuel text N out).coding_pos ≤
      16 * (compressRun fuel text N out).emitted.length :=
    compressLoop_coding_pos_le text N fuel (compressInit N out) (by simp [compressInit])
  have hacc : (∀ e ∈ (compressRun fuel text N out).emitted, e.pos + e.found ≤ N) →
      ((compressRun fuel text N out).emitted.map (fun e => e.length)).sum +
        (compressRun fuel text N out).emitted.length = N := by
    intro hg
    have h := compressLoop_accounting text N hN15 fuel (compressInit N out) hg
      (by simp [compressInit]; omega)
    rw [← sum_length_succ]
    simpa [compressRun, compressInit] using h
  refine ⟨hres, by omega, by omega, ?_, ?_, ?_⟩
  · intro hz
    have hg : ∀ e ∈ (compressRun fuel text N out).emitted, e.pos + e.found ≤ N := by
      intro e he
      obtain ⟨hp, hee⟩ := compressRun_emitted fuel text N out e he
      have hl := congrArg Emitted.length hee
      rw [hz e he] at hl
      have := emitAt_length_zero_inside text N e.pos hp hN15 hl.symm
      have hf := congrArg Emitted.found hee
      rw [emitAt_found] at hf
      omega
    have := hacc hg
    rw [(sum_length_zero _).mpr hz] at this
    omega
  · intro hg hkN
    have := hacc hg
    exact (sum_length_zero _).mp (by omega)
  · intro hd
    have h := compressLoop_distinct text N hN15 hd fuel (compressInit N out)
      (by simp [compressInit]) (by simp [compressInit]; omega)
    have he : (compressRun fuel text N out).emitted = (List.range N).map
        (fun i => { pos := i, distance := 0, found := 0, length := 0, literal := text i }) := by
      rw [List.range_eq_range']
      simpa [compressRun, compressInit] using h
    refine ⟨he, ?_⟩
    rw [he]
    simp

/-- C16, witness of the amended statement: the four distinct bytes "ABCD" give
four pure literals and the size `4 + 3 * 4 = 16`. -/
theorem size_bounds_witness :
    (lz77_compress 4 (memOfList [65, 66, 67, 68]) 4 (fun _ => 0)).map (fun r => r.1) =
      some 16 ∧
    (compressRun 4 (memOfList [65, 66, 67, 68]) 4 (fun _ => 0)).emitted =
      [{ pos := 0, distance := 0, found := 0, length := 0, literal := 65 },
       { pos := 1, distance := 0, found := 0, length := 0, literal := 66 },
       { pos := 2, distance := 0, found := 0, length := 0, literal := 67 },
       { pos := 3, distance := 0, found := 0, length := 0, literal := 68 }] ∧
    4 + 3 * ((4 + 15) / 16) ≤
      4 + 3 * (compressRun 4 (memOfList [65, 66, 67, 68]) 4 (fun _ => 0)).emitted.length :=
  have h := size_bounds 4 (memOfList [65, 66, 67, 68]) 4 (fun _ => 0) (by decide) (by decide)
  ⟨(congrArg (Option.map (fun r => r.1)) h.1).trans (by decide),
    (h.2.2.2.2.2 (by
      intro i j hij hj
      interval_cases j <;> interval_cases i <;> decide)).1.trans (by decide), h.2.1⟩

/-! ## The match finder and the end of the buffer -/

theorem specEqualRunIn_spec (text : Mem) (n : Nat) :
    ∀ (cap a b : Nat), specEqualRunIn text n a b cap ≤ cap ∧
      (∀ i, i < specEqualRunIn text n a b cap → text (a + i) = text (b + i) ∧ b + i < n) ∧
      (specEqualRunIn text n a b cap < cap →
        ¬ (b + specEqualRunIn text n a b cap < n ∧
          text (a + specEqualRunIn text n a b cap) =
            text (b + specEqualRunIn text n a b cap))) := by
  intro cap
  induction cap with
  | zero =>
    intro a b
    refine ⟨le_refl _, ?_, ?_⟩
    · intro i hi; simp [specEqualRunIn] at hi
    · intro h; simp [specEqualRunIn] at h
  | succ cap ih =>
    intro a b
    unfold specEqualRunIn
    by_cases heq : b < n ∧ text a = text b
    · rw [if_pos heq]
      obtain ⟨h1, h2, h3⟩ := ih (a + 1) (b + 1)
      refine ⟨by omega, ?_, ?_⟩
      · intro i hi
        cases i with
        | zero => exact ⟨by simpa using heq.2, by simpa using heq.1⟩
        | succ j =>
          have := h2 j (by omega)
          rw [show a + (j + 1) = a + 1 + j by omega, show b + (j + 1) = b + 1 + j by omega]
          exact this
      · intro hlt
        have := h3 (by omega)
        rw [← Nat.add_assoc, ← Nat.add_assoc]
        exact this
    · rw [if_neg heq]
      refine ⟨by omega, ?_, ?_⟩
      · intro i hi; omega
      · intro _; simpa using heq

/-- When the byte after the input differs from the byte `c` places before it,
the run of the candidate `c` counted in memory ends inside the buffer and is
the run counted inside the buffer. -/
theorem specEqualRunIn_eq (text : Mem) (N p c : Nat) (hp : p < N)
    (hc2 : c ≤ p) (hs : text (N - c) ≠ text N) :
    specEqualRunIn text N (p - c) p 15 = specEqualRun text (p - c) p 15 := by
  obtain ⟨s1, s2, s3⟩ := specEqualRun_spec text 15 (p - c) p
  obtain ⟨t1, t2, t3⟩ := specEqualRunIn_spec text N 15 (p - c) p
  have hin : p + specEqualRun text (p - c) p 15 ≤ N := by
    by_contra hlt
    have := s2 (N - p) (by omega)
    rw [show p - c + (N - p) = N - c by omega, show p + (N - p) = N by omega] at this
    exact hs this
  rcases Nat.lt_trichotomy (specEqualRunIn text N (p - c) p 15)
      (specEqualRun text (p - c) p 15) with h | h | h
  · exact absurd ⟨by omega, s2 _ h⟩ (t3 (by omega))
  · exact h
  · exact absurd (t2 _ h).1 (s3 (by omega))

/-- For an input followed by a byte that cannot continue a match, the found
length is the maximum of the runs counted inside the buffer. -/
theorem findMatch_eq_specBestLengthIn (text : Mem) (N p : Nat) (hN : N + 15 < 4294967296)
    (hp : p < N) (hs : ∀ d, 1 ≤ d → d ≤ min 4095 N → text (N - d) ≠ text N) :
    (findMatch text p).2 = specBestLengthIn text N p := by
  rw [findMatch_eq_specBestLength text p (by omega)]
  unfold specBestLength specBestLengthIn
  congr 1
  apply List.map_congr_left
  intro j hj
  have hj2 := List.mem_range.mp hj
  exact (specEqualRunIn_eq text N p (j + 1) hp (by omega)
    (hs (j + 1) (by omega) (by omega))).symm

/-- C4 at a failing input. The array holds 'A' 'A' 'A' 'B' and the buffer is its
first two bytes (`uncompressed_size = 2`).  At the coding position 1 the only
candidate distance is 1 and the runs starting at 0 and at 1 have one equal byte
inside the buffer, so the maximum of the claim is 1; the search loop gives the
pair (1, 2): it has counted `text[2]`, a byte after the buffer, and
`1 + 2 > 2`. -/
theorem match_finder_overrun :
    bytes (memOfList [65, 65, 65, 66]) 2 = [65, 65] ∧
    (compressRun 1 (memOfList [65, 65, 65, 66]) 2 (fun _ => 0)).coding_pos = 1 ∧
    findMatch (memOfList [65, 65, 65, 66]) 1 = (1, 2) ∧
    specEqualRunIn (memOfList [65, 65, 65, 66]) 2 (1 - 1) 1 15 = 1 ∧
    specBestLengthIn (memOfList [65, 65, 65, 66]) 2 1 = 1 ∧
    (findMatch (memOfList [65, 65, 65, 66]) 1).2 ≠
      specBestLengthIn (memOfList [65, 65, 65, 66]) 2 1 ∧
    ¬ (1 + (findMatch (memOfList [65, 65, 65, 66]) 1).2 ≤ 2) := by
  decide

end LZ1
